import Mathlib

/-!
Verification of the ufiles-api core against its specification.

This file shallowly embeds the metadata engine of the repository
(`app/apps/files/models.py`, `services.py`, `storage/local_storage.py`,
`encryption_service.py`) in Lean 4 and proves or refutes the frozen claims.

Modelling conventions:
* UUIDs and user identifiers are erased to `Nat`; the embedding identifies
  the string and UUID renderings of one identifier, so `perm.user_id == user_id`
  is plain equality on `Nat`.
* Timestamps (`updated_at`, `deleted_at`) are `Nat` ticks; `datetime.now()`
  becomes an explicit `now` parameter.
* The MongoDB collections become in-memory lists carried in a `St` record;
  a Mongo query becomes a `List.filter`, `$sort` a stable insertion sort,
  `$skip`/`$limit` become `List.drop`/`List.take`.
* `async` is erased: a spawned upload task (`asyncio.create_task`) is applied
  to the state at once, which models the state after the task has run.
* External primitives (md5, MIME sniffing) are fields of an `Env` parameter.
-/

namespace UFiles

/-- Permission levels, from `PermissionEnum` in `app/apps/files/schemas.py`
(an `IntEnum` with values NONE=0 READ=10 WRITE=20 MANAGE=30 DELETE=40 OWNER=100). -/
inductive PermissionEnum where
  | NONE
  | READ
  | WRITE
  | MANAGE
  | DELETE
  | OWNER
deriving DecidableEq, Repr

namespace PermissionEnum

/-- Numeric value of each level, as declared in the `IntEnum`. -/
def toNat : PermissionEnum → Nat
  | .NONE => 0
  | .READ => 10
  | .WRITE => 20
  | .MANAGE => 30
  | .DELETE => 40
  | .OWNER => 100

/-- Integer comparison `>=` on the enum, as Python compares `IntEnum` members. -/
def ge (a b : PermissionEnum) : Bool := b.toNat ≤ a.toNat

/-- Integer comparison `>` on the enum (used by the `$gt` Mongo operator in
`list_files`). -/
def gt (a b : PermissionEnum) : Bool := b.toNat < a.toNat

end PermissionEnum

/-- One ACL entry: `Permission` in `app/apps/files/schemas.py`
(`user_id` plus an inherited `permission` level). -/
structure Permission where
  user_id : Nat
  permission : PermissionEnum
deriving DecidableEq, Repr

/-- Capability accessors of `PermissionSchema` (`read`/`write`/`manage`/
`delete`/`owner` properties): `permission >= LEVEL`. -/
def permRead (p : PermissionEnum) : Bool := p.ge .READ

/-- The `delete` property of `PermissionSchema`: `permission >= DELETE`. -/
def permDelete (p : PermissionEnum) : Bool := p.ge .DELETE

/-- The `write` property of `PermissionSchema`: `permission >= WRITE`. -/
def permWrite (p : PermissionEnum) : Bool := p.ge .WRITE

/-- A `FileMetaData` document (`app/apps/files/models.py`).  Fields that no
claim touches (`root_url`, `access_at`, `history`, image metadata) are not
carried. -/
structure FileRec where
  uid : Nat
  user_id : Nat
  business_name : String
  parent_id : Option Nat := none
  is_directory : Bool := false
  filename : String
  filehash : Option String := none
  s3_key : Option String := none
  content_type : String := "inode/directory"
  size : Nat := 4096
  is_deleted : Bool := false
  deleted_at : Option Nat := none
  updated_at : Nat := 0
  permissions : List Permission := []
  public_permission : PermissionEnum := .NONE
deriving DecidableEq, Repr

/-- An `ObjectMetaData` document (`app/apps/files/models.py`). -/
structure ObjRec where
  business_name : String
  s3_key : String
  size : Nat
  object_hash : String
  content_type : String
deriving DecidableEq, Repr

/-- The persistent state: the two Mongo collections, the set of keys present
in the storage backend, and the UID supply for newly created documents. -/
structure St where
  files : List FileRec
  objects : List ObjRec
  storage : List String
  nextUid : Nat
deriving DecidableEq, Repr

/-- External environment: configuration values and the primitives the code
calls out to (md5 hashing, MIME sniffing, the clock). -/
structure Env where
  md5 : List Nat → String
  sniffMime : List Nat → String
  pageMaxLimit : Nat
  sizeLimit : Nat
  publicAccessDefault : Bool
  now : Nat

/-- Translation of `FileMetaData.user_permission` (models.py:298-317): `None`
resolves to `public_permission`; the owner resolves to `OWNER` before the ACL
is consulted; otherwise the first matching ACL entry wins; otherwise
`public_permission`. -/
def userPermission (f : FileRec) (user_id : Option Nat) : PermissionEnum :=
  match user_id with
  | none => f.public_permission
  | some u =>
    if f.user_id = u then
      .OWNER
    else
      match f.permissions.find? (fun p => p.user_id = u) with
      | some p => p.permission
      | none => f.public_permission

/-- Error taxonomy of the embedded operations (Python exceptions and
`BaseHTTPException`s raised by the translated code). -/
inductive Err where
  | permissionDenied
  | invalidFilename
  | fileTooLarge
  | multipleFiles
  | fileNotFound
  | outOfFuel
deriving DecidableEq, Repr

/-- Stable insertion of a row into a list sorted by `updated_at` descending:
the row goes after every earlier row with an equal or larger timestamp,
matching a stable `$sort: {updated_at: -1}`. -/
def insertUpdatedDesc (r : FileRec) : List FileRec → List FileRec
  | [] => [r]
  | x :: xs =>
    if x.updated_at < r.updated_at then r :: x :: xs
    else x :: insertUpdatedDesc r xs

/-- Stable sort by `updated_at` descending (the default `$sort` stage of
`FileMetaData.list_files`). -/
def sortUpdatedDesc : List FileRec → List FileRec
  | [] => []
  | r :: rs => insertUpdatedDesc r (sortUpdatedDesc rs)

/-- Keyword arguments of `FileMetaData.list_files`, with the Python defaults. -/
structure ListArgs where
  user_id : Option Nat
  business_name : String
  offset : Nat := 0
  limit : Nat := 10
  parent_id : Option Nat := none
  filehash : Option String := none
  filename : Option String := none
  file_id : Option Nat := none
  is_deleted : Bool := false
  is_directory : Option Bool := none
  root_permission : Bool := false
  content_type : Option String := none

/-- Whether the `parent_id` key survives in the final Mongo query dict of
`list_files`: it is popped when `filehash` is given, when `filename` is given
with `parent_id = None`, and when `is_deleted` holds with `parent_id = None`. -/
def parentFilterActive (a : ListArgs) : Bool :=
  !(a.filehash.isSome
    || (a.filename.isSome && a.parent_id.isNone)
    || (a.is_deleted && a.parent_id.isNone))

/-- The `$match` predicate of the general branch of `list_files` for caller
`u`: `is_deleted` and `business_name` equality, the `$or` of owner and an
ACL entry with `permission` strictly greater than `READ` (`$gt`), and the
optional `parent_id`/`filehash`/`filename`/`is_directory`/`content_type`
equality filters. -/
def listQueryMatches (a : ListArgs) (u : Nat) (r : FileRec) : Bool :=
  r.is_deleted = a.is_deleted
  && r.business_name = a.business_name
  && (r.user_id = u
      || r.permissions.any (fun p => p.user_id = u && p.permission.gt .READ))
  && (!parentFilterActive a || r.parent_id = a.parent_id)
  && (match a.filehash with | none => true | some h => r.filehash = some h)
  && (match a.filename with | none => true | some n => r.filename = n)
  && (match a.is_directory with | none => true | some d => r.is_directory = d)
  && (match a.content_type with | none => true | some c => r.content_type = c)

/-- Translation of `FileMetaData.list_files` (models.py:107-209).  The
`file_id` branch ignores every filter except `business_name`, raises on a
duplicate UID, and gates the single result on `root_permission` or
`user_permission(user_id).read`; the general branch returns `([], 0)` for an
anonymous caller and otherwise pages the sorted `$match` results. -/
def listFiles (env : Env) (st : St) (a : ListArgs) :
    Except Err (List FileRec × Nat) :=
  let lim := min a.limit env.pageMaxLimit
  match a.file_id with
  | some fid =>
    let matched := st.files.filter
      (fun r => r.uid = fid && r.business_name = a.business_name)
    let items := (matched.drop a.offset).take lim
    match items with
    | [] => .ok ([], 0)
    | [item] =>
      if a.root_permission then .ok ([item], 1)
      else if permRead (userPermission item a.user_id) then .ok ([item], 1)
      else .ok ([], 0)
    | _ => .error .multipleFiles
  | none =>
    match a.user_id with
    | none => .ok ([], 0)
    | some u =>
      let matched := st.files.filter (listQueryMatches a u)
      let items := ((sortUpdatedDesc matched).drop a.offset).take lim
      .ok (items, matched.length)

/-- Translation of `FileMetaData.create_directory` (models.py:235-251): a new
document with `is_directory=True` and the model defaults, appended to the
collection; the fresh UID comes from the state's UID supply. -/
def createDirectory (env : Env) (st : St) (user : Nat) (business : String)
    (dirname : String) (parent : Option Nat) : FileRec × St :=
  let row : FileRec :=
    { uid := st.nextUid
      user_id := user
      business_name := business
      parent_id := parent
      is_directory := true
      filename := dirname
      updated_at := env.now }
  (row, { st with files := st.files ++ [row], nextUid := st.nextUid + 1 })

/-- Python's `"/" in s`, on the character list (kernel-reducible form). -/
def strContainsSlash (s : String) : Bool := s.toList.contains '/'

/-- Python's `s.endswith("/")` (equivalently `s[-1] == "/"` on a nonempty
string), on the character list. -/
def strEndsWithSlash (s : String) : Bool := s.toList.getLast? = some '/'

/-- Path segments of `Path(filepath.lstrip("/")).parts`: split on `/`,
dropping empty components and `.` (which `pathlib` normalises away). -/
def pathParts (filepath : String) : List String :=
  (filepath.splitOn "/").filter (fun s => s ≠ "" && s ≠ ".")

/-- The directory loop of `FileMetaData.get_path`: for each intermediate
segment, look up an existing directory child by name (via `list_files`) or
create it when `create` holds, then descend. -/
def getPathLoop (env : Env) (business : String) (user : Nat) (create : Bool) :
    List String → St → Option Nat → Except Err (St × Option Nat)
  | [], st, parent => .ok (st, parent)
  | part :: rest, st, parent => do
    let (found, _) ← listFiles env st
      { user_id := some user
        business_name := business
        filename := some part
        is_directory := some true
        parent_id := parent }
    match found with
    | [] =>
      if create then
        let (dir, st1) := createDirectory env st user business part parent
        getPathLoop env business user create rest st1 (some dir.uid)
      else .error .fileNotFound
    | f :: _ => getPathLoop env business user create rest st (some f.uid)

/-- Translation of `FileMetaData.get_path` (models.py:253-289): rejects a
trailing slash, resolves (or creates) every intermediate directory, and
returns the final parent id together with the leaf name. -/
def getPath (env : Env) (st : St) (filepath business : String) (user : Nat)
    (parent0 : Option Nat := none) (create : Bool := true) :
    Except Err (St × Option Nat × String) := do
  if strEndsWithSlash filepath then .error .invalidFilename
  else
    match h : pathParts filepath with
    | [] => .error .invalidFilename
    | _ :: _ =>
      let parts := pathParts filepath
      let (st1, parent) ←
        getPathLoop env business user create parts.dropLast st parent0
      .ok (st1, parent, parts.getLast (by simp [parts, h]))

/-- Record a key as present in the backend (the effect of `upload_to_s3` or
`upload_to_s3_multipart` on the bucket). -/
def storagePut (st : St) (key : String) : St :=
  if key ∈ st.storage then st else { st with storage := st.storage ++ [key] }

/-- Translation of `manage_upload_to_s3` (services.py:267-300): if an
`ObjectMetaData` for this `(business_name, s3_key)` already exists the upload
is skipped entirely; otherwise the bytes are uploaded (multipart above
200 MiB, plain otherwise) and a new `ObjectMetaData` row is saved. -/
def manageUpload (st : St) (businessName key : String) (size : Nat)
    (filehash ct : String) : St :=
  if st.objects.any (fun o =>
      o.business_name = businessName && o.s3_key = key) then
    st
  else
    let st1 :=
      if 200 * 1024 * 1024 < size then storagePut st key else storagePut st key
    { st1 with
      objects := st1.objects ++ [⟨businessName, key, size, filehash, ct⟩] }

/-- Translation of `process_file` (services.py:90-187): filename/path
resolution, size check, md5 hash, the dedup lookup by `(filehash, filename)`
with a Python-side `parent_id` comparison, the storage upload, and the
construction of the (unsaved) `FileMetaData` row.  The spawned upload task is
applied to the state directly, modelling its completed effect. -/
def processFile (env : Env) (st : St) (user : Nat) (businessName : String)
    (parent0 : Option Nat) (filenameOpt : Option String) (fileFilename : String)
    (fileBytes : List Nat) (publicPermKw : Option PermissionEnum)
    (accessPublic : Bool) : Except Err (FileRec × St) := do
  let (st1, parent, leaf) ←
    match filenameOpt with
    | some fn =>
      if strContainsSlash fn then
        if strEndsWithSlash fn then .error .invalidFilename
        else getPath env st fn businessName user
      else .ok (st, parent0, fn)
    | none => .ok (st, parent0, fileFilename)
  let size := fileBytes.length
  if env.sizeLimit < size then .error .fileTooLarge
  else
    let mime := env.sniffMime fileBytes
    let filehash := env.md5 fileBytes
    let (existing, _) ← listFiles env st1
      { user_id := some user
        business_name := businessName
        filehash := some filehash
        filename := some leaf }
    match existing.find? (fun e => e.parent_id = parent) with
    | some existed => .ok (existed, st1)
    | none =>
      let key := businessName ++ "/" ++ filehash
      let st2 := manageUpload st1 businessName key size filehash mime
      let pub := publicPermKw.getD
        (if accessPublic then PermissionEnum.READ else .NONE)
      let row : FileRec :=
        { uid := st2.nextUid
          user_id := user
          business_name := businessName
          parent_id := parent
          filename := leaf
          filehash := some filehash
          s3_key := some key
          content_type := mime
          size := size
          public_permission := pub
          updated_at := env.now }
      .ok (row, { st2 with nextUid := st2.nextUid + 1 })

/-- Saving a Beanie document: replace the row with the same UID, or append a
new row. -/
def saveDoc (st : St) (r : FileRec) : St :=
  if st.files.any (fun x => x.uid = r.uid) then
    { st with files := st.files.map (fun x => if x.uid = r.uid then r else x) }
  else
    { st with files := st.files ++ [r] }

/-- The `/f/upload` route body after authentication (routes.py:466-505):
`process_file` followed by `file_metadata.save()`. -/
def routeUploadFile (env : Env) (st : St) (user : Nat) (businessName : String)
    (parent0 : Option Nat) (filenameOpt : Option String) (fileFilename : String)
    (fileBytes : List Nat) (publicPermKw : Option PermissionEnum)
    (accessPublic : Bool) : Except Err (FileRec × St) := do
  let (meta, st1) ← processFile env st user businessName parent0 filenameOpt
    fileFilename fileBytes publicPermKw accessPublic
  .ok (meta, saveDoc st1 meta)

/-- Mark a row soft-deleted (`is_deleted = True`, `deleted_at = now`,
followed by `save()`). -/
def markDeleted (st : St) (uid now : Nat) : St :=
  { st with
    files := st.files.map (fun r =>
      if r.uid = uid then { r with is_deleted := true, deleted_at := some now }
      else r) }

/-- Clear the soft-delete marker (`is_deleted = False`, `deleted_at = None`,
followed by `save()`). -/
def markRestored (st : St) (uid : Nat) : St :=
  { st with
    files := st.files.map (fun r =>
      if r.uid = uid then { r with is_deleted := false, deleted_at := none }
      else r) }

/-- Remove a document row (`super().delete()` on `FileMetaData`). -/
def removeRow (st : St) (uid : Nat) : St :=
  { st with files := st.files.filter (fun r => r.uid ≠ uid) }

/-- Translation of `ObjectMetaData.delete` (models.py:33-45): recount the
`FileMetaData` rows holding this `s3_key`; when none remain, delete the
backend object and then the `ObjectMetaData` row itself. -/
def objDelete (st : St) (o : ObjRec) : St :=
  if (st.files.filter (fun r => r.s3_key = some o.s3_key)).length ≠ 0 then st
  else
    { st with
      storage := st.storage.filter (fun k => k ≠ o.s3_key)
      objects := st.objects.filter (fun x => x.s3_key ≠ o.s3_key) }

/-- Look up the `ObjectMetaData` for a file's `s3_key`; a directory's
`s3_key` is `None` and never matches (the field is required on
`ObjectMetaData`). -/
def findObj (st : St) (k : Option String) : Option ObjRec :=
  match k with
  | none => none
  | some key => st.objects.find? (fun o => o.s3_key = key)

/-- Translation of `FileMetaData.delete` (models.py:331-356): permission
check, recursive cascade over the children listed by `list_files` (with its
default pagination) via the `for file in files` loop (a `foldlM` over the
listing), then either the soft-delete save (first call) or the row removal
plus reference-counted object deletion (already-deleted call).  General
recursion is embedded with explicit fuel, structurally decreasing so that the
definition evaluates by kernel reduction. -/
def deleteOp : Nat → Env → Nat → St → FileRec → Except Err St
  | 0, _, _, _, _ => .error .outOfFuel
  | fuel + 1, env, actor, st, self =>
    if !(permDelete (userPermission self (some actor))) then
      .error .permissionDenied
    else do
      let st1 ←
        if self.is_directory then do
          let (children, _) ← listFiles env st
            { user_id := some actor
              business_name := self.business_name
              parent_id := some self.uid
              is_deleted := self.is_deleted }
          children.foldlM (fun s c => deleteOp fuel env actor s c) st
        else .ok st
      if !self.is_deleted then
        .ok (markDeleted st1 self.uid env.now)
      else
        let st2 := removeRow st1 self.uid
        if (st2.files.filter (fun r => r.s3_key = self.s3_key)).length = 0 then
          match findObj st2 self.s3_key with
          | some o => .ok (objDelete st2 o)
          | none => .ok st2
        else
          .ok st2

/-- Translation of `FileMetaData.restore` (models.py:358-375): permission
check, recursive cascade over the children listed with `is_deleted=True`
(again a `foldlM` over the listing), then clearing of the soft-delete marker
when set. -/
def restoreOp : Nat → Env → Nat → St → FileRec → Except Err St
  | 0, _, _, _, _ => .error .outOfFuel
  | fuel + 1, env, actor, st, self =>
    if !(permDelete (userPermission self (some actor))) then
      .error .permissionDenied
    else do
      let st1 ←
        if self.is_directory then do
          let (children, _) ← listFiles env st
            { user_id := some actor
              business_name := self.business_name
              parent_id := some self.uid
              is_deleted := true }
          children.foldlM (fun s c => restoreOp fuel env actor s c) st
        else .ok st
      if self.is_deleted then
        .ok (markRestored st1 self.uid)
      else
        .ok st1

/-- Python's `x or d` on an optional integer: `None` and `0` are both falsy
and replaced by the default.  Used by `LocalStorageBackend.stream_file` for
`start = start or 0` and `end = end or file_size`. -/
def pyOrNat (v : Option Nat) (dflt : Nat) : Nat :=
  match v with
  | none => dflt
  | some n => if n = 0 then dflt else n

/-- The read loop of `LocalStorageBackend.stream_file` (local_storage.py:
143-162): from position `pos`, repeatedly read `min chunkSize remaining`
bytes, stopping when the byte budget is exhausted or the file ends.  Each
read returns at most `remaining` bytes, so the signed Python budget never
goes negative; the loop is fuelled by the initial budget, which bounds the
iteration count since every iteration consumes at least one budget byte. -/
def streamLoop (content : List Nat) (chunkSize : Nat) :
    Nat → Nat → Nat → List (List Nat)
  | 0, _, _ => []
  | fuel + 1, pos, remaining =>
    if remaining = 0 then []
    else
      match (content.drop pos).take (min chunkSize remaining) with
      | [] => []
      | b :: bs =>
        (b :: bs) :: streamLoop content chunkSize fuel (pos + (b :: bs).length)
          (remaining - (b :: bs).length)

/-- Translation of `LocalStorageBackend.stream_file` (local_storage.py:
121-162): `start = start or 0`, `end = end or size`, seek to `start`, then
stream at most `end - start + 1` bytes in `chunkSize` pieces; a non-positive
budget (`end < start` after the falsy-default step) streams nothing. -/
def streamFile (content : List Nat) (startOpt endOpt : Option Nat)
    (chunkSize : Nat) : List (List Nat) :=
  let start := pyOrNat startOpt 0
  let endv := pyOrNat endOpt content.length
  let maxBytes := ((endv : Int) - (start : Int) + 1).toNat
  streamLoop content chunkSize maxBytes start maxBytes

/-- XOR a byte list against a keystream starting at offset `off`: the effect
of `encryptor.update` / `decryptor.update` for an AES-CTR cipher whose
keystream is abstracted as the function `ks`. -/
def ctrXor (ks : Nat → Nat) (off : Nat) : List Nat → List Nat
  | [] => []
  | b :: bs => (b ^^^ ks off) :: ctrXor ks (off + 1) bs

/-- Chunk-wise CTR processing with a running cipher state: each chunk is
XORed at the current keystream offset, and the offset advances by the chunk
length. -/
def ctrChunks (ks : Nat → Nat) (off : Nat) : List (List Nat) → List (List Nat)
  | [] => []
  | c :: cs => ctrXor ks off c :: ctrChunks ks (off + c.length) cs

/-- Translation of `EncryptionService.stream_and_encrypt` (encryption_service
.py:19-56): yield the IV first, then the CTR-encrypted chunks; `finalize()`
of a CTR cipher returns the empty string, which the code does not yield.
The AES-CTR keystream derived from `(key, iv)` is abstracted as `ksOf`. -/
def streamAndEncrypt (ksOf : List Nat → List Nat → Nat → Nat)
    (key iv : List Nat) (chunks : List (List Nat)) : List (List Nat) :=
  iv :: ctrChunks (ksOf key iv) 0 chunks

/-- Translation of `EncryptionService.decrypt_stream` (encryption_service.py:
58-94): consume the first chunk as the IV, then decrypt the remaining chunks
with the matching cipher state; `anext` on an exhausted stream raises, giving
`none`. -/
def decryptStream (ksOf : List Nat → List Nat → Nat → Nat) (key : List Nat)
    (encStream : List (List Nat)) : Option (List (List Nat)) :=
  match encStream with
  | [] => none
  | iv :: rest => some (ctrChunks (ksOf key iv) 0 rest)

/-- Python's `key.replace("..", "")`: delete non-overlapping occurrences of
`..` scanning left to right. -/
def removeDotDot : List Char → List Char
  | [] => []
  | [c] => [c]
  | c :: c2 :: rest =>
    if c = '.' ∧ c2 = '.' then removeDotDot rest
    else c :: removeDotDot (c2 :: rest)

/-- Whether two adjacent dots (a `..` substring) occur in the string. -/
def hasDotDot : List Char → Bool
  | c :: c2 :: rest => (c = '.' && c2 = '.') || hasDotDot (c2 :: rest)
  | _ => false

/-- Translation of `LocalStorageBackend._get_file_path`'s sanitization
(local_storage.py:47-51): `key.replace("..", "").lstrip("/")`; the result is
then joined under `base_path`. -/
def sanitizeKey (key : List Char) : List Char :=
  (removeDotDot key).dropWhile (fun c => c = '/')

/-- Split a character list into `/`-separated path segments. -/
def splitSegs : List Char → List (List Char)
  | [] => [[]]
  | c :: cs =>
    let r := splitSegs cs
    if c = '/' then [] :: r
    else (c :: r.headD []) :: r.tail

/-- POSIX resolution of a relative segment list against an absolute base:
empty and `.` segments are skipped, `..` pops the last base component, and
any other segment descends. -/
def resolvePath (base : List (List Char)) : List (List Char) → List (List Char)
  | [] => base
  | s :: rest =>
    if s = ['.', '.'] then resolvePath base.dropLast rest
    else if s = [] ∨ s = ['.'] then resolvePath base rest
    else resolvePath (base ++ [s]) rest

section Theorems

/-- Helper: with a unique matching ACL entry and a non-owner caller,
`user_permission` returns that entry's level. -/
theorem userPermission_acl_entry (f : FileRec) (u : Nat) (p : Permission)
    (hown : f.user_id ≠ u) (hp : p ∈ f.permissions) (hu : p.user_id = u)
    (huniq : ∀ q ∈ f.permissions, q.user_id = u → q = p) :
    userPermission f (some u) = p.permission := by
  simp only [userPermission]
  rw [if_neg hown]
  cases hfind : f.permissions.find? (fun q => q.user_id = u) with
  | none =>
    exfalso
    rw [List.find?_eq_none] at hfind
    exact hfind p hp (by simp [hu])
  | some q =>
    have hqm := List.mem_of_find?_eq_some hfind
    have hq := List.find?_some hfind
    simp only [decide_eq_true_eq] at hq
    rw [huniq q hqm hq]

/-- Helper: with no ACL entry for the caller and a non-owner caller,
`user_permission` falls back to `public_permission`. -/
theorem userPermission_no_entry (f : FileRec) (u : Nat)
    (hown : f.user_id ≠ u)
    (hnone : ∀ q ∈ f.permissions, q.user_id ≠ u) :
    userPermission f (some u) = f.public_permission := by
  simp only [userPermission]
  rw [if_neg hown]
  cases hfind : f.permissions.find? (fun q => q.user_id = u) with
  | none => rfl
  | some q =>
    exfalso
    have hqm := List.mem_of_find?_eq_some hfind
    have hq := List.find?_some hfind
    simp only [decide_eq_true_eq] at hq
    exact hnone q hqm hq

/-- C4: permission resolution.  `user_permission` returns OWNER whenever the
caller is the owner (regardless of ACL entries or `public_permission`);
otherwise the matching ACL entry's level when one exists; otherwise
`public_permission`; and an anonymous (`None`) caller always resolves to
`public_permission`. -/
theorem C4_user_permission_resolution (f : FileRec) (u : Nat) (p : Permission) :
    (userPermission f none = f.public_permission)
    ∧ (f.user_id = u → userPermission f (some u) = .OWNER)
    ∧ (f.user_id ≠ u → p ∈ f.permissions → p.user_id = u →
        (∀ q ∈ f.permissions, q.user_id = u → q = p) →
        userPermission f (some u) = p.permission)
    ∧ (f.user_id ≠ u → (∀ q ∈ f.permissions, q.user_id ≠ u) →
        userPermission f (some u) = f.public_permission) := by
  refine ⟨rfl, ?_, ?_, ?_⟩
  · intro h
    simp [userPermission, h]
  · intro hown hp hu huniq
    exact userPermission_acl_entry f u p hown hp hu huniq
  · intro hown hnone
    exact userPermission_no_entry f u hown hnone

/-- Witness for C4 at a concrete node: owner 5 with an ACL entry granting
WRITE to user 8 over a READ public permission. -/
theorem C4_user_permission_resolution_witness :
    let f : FileRec :=
      { uid := 1, user_id := 5, business_name := "b", filename := "f"
        permissions := [⟨8, .WRITE⟩], public_permission := .READ }
    (5 : Nat) = f.user_id
    ∧ userPermission f (some 5) = .OWNER
    ∧ userPermission f (some 8) = .WRITE
    ∧ userPermission f none = .READ := by
  intro f
  refine ⟨rfl, (C4_user_permission_resolution f 5 ⟨8, .WRITE⟩).2.1 rfl,
    (C4_user_permission_resolution f 8 ⟨8, .WRITE⟩).2.2.1 (by decide)
      (by simp [f]) rfl (by decide), rfl⟩

/-- C9 (implicit): an explicit ACL entry shadows `public_permission` even
downward.  For a non-owner caller with a (unique) matching entry, the entry's
level is returned unconditionally — in particular a NONE entry denies read on
a node whose `public_permission` is READ, while the anonymous caller still
resolves to READ. -/
theorem C9_acl_shadows_public (f : FileRec) (u : Nat) (p : Permission)
    (hown : f.user_id ≠ u) (hp : p ∈ f.permissions) (hu : p.user_id = u)
    (huniq : ∀ q ∈ f.permissions, q.user_id = u → q = p) :
    userPermission f (some u) = p.permission
    ∧ (p.permission = .NONE → permRead (userPermission f (some u)) = false)
    ∧ (f.public_permission = .READ → permRead (userPermission f none) = true) := by
  have hmain := userPermission_acl_entry f u p hown hp hu huniq
  refine ⟨hmain, ?_, ?_⟩
  · intro hnone
    rw [hmain, hnone]
    rfl
  · intro hpub
    show permRead (f.public_permission) = true
    rw [hpub]
    rfl

/-- Witness for C9: a NONE entry for user 8 on a public-READ node owned by 5
denies user 8 read access while the anonymous caller keeps READ. -/
theorem C9_acl_shadows_public_witness :
    let f : FileRec :=
      { uid := 1, user_id := 5, business_name := "b", filename := "f"
        permissions := [⟨8, .NONE⟩], public_permission := .READ }
    userPermission f (some 8) = .NONE
    ∧ permRead (userPermission f (some 8)) = false
    ∧ permRead (userPermission f none) = true := by
  intro f
  have h := C9_acl_shadows_public f 8 ⟨8, .NONE⟩ (by decide) (by simp [f]) rfl
    (by decide)
  exact ⟨h.1, h.2.1 rfl, h.2.2 rfl⟩

/-- Helper: `hasDotDot` on two conses is the adjacent-dot test at the head
plus the recursive call. -/
theorem hasDotDot_cons_cons (a b : Char) (r : List Char) :
    hasDotDot (a :: b :: r) = ((a = '.' && b = '.') || hasDotDot (b :: r)) :=
  rfl

/-- Helper: a tail of a dot-free string is dot-free. -/
theorem hasDotDot_tail {a : Char} {l : List Char}
    (h : hasDotDot (a :: l) = false) : hasDotDot l = false := by
  cases l with
  | nil => rfl
  | cons b r =>
    rw [hasDotDot_cons_cons] at h
    exact (Bool.or_eq_false_iff.mp h).2

/-- Helper: when the head is not a dot, `removeDotDot` keeps it and recurses. -/
theorem removeDotDot_cons_ne (c : Char) (r : List Char) (h : c ≠ '.') :
    removeDotDot (c :: r) = c :: removeDotDot r := by
  cases r with
  | nil => rfl
  | cons r1 rs =>
    show removeDotDot (c :: r1 :: rs) = _
    simp only [removeDotDot]
    rw [if_neg (fun hh => h hh.1)]

/-- Helper: the characters removed by `removeDotDot` are whole `..` pairs, so
its result never contains two adjacent dots. -/
theorem hasDotDot_removeDotDot : ∀ (n : Nat) (l : List Char),
    l.length ≤ n → hasDotDot (removeDotDot l) = false := by
  intro n
  induction n with
  | zero =>
    intro l hl
    have hnil : l = [] := List.eq_nil_of_length_eq_zero (Nat.le_zero.mp hl)
    subst hnil
    rfl
  | succ n ih =>
    intro l hl
    match l with
    | [] => rfl
    | [c] => rfl
    | c :: c2 :: r =>
      by_cases hdd : c = '.' ∧ c2 = '.'
      · rw [show removeDotDot (c :: c2 :: r) = removeDotDot r from by
          simp [removeDotDot, hdd]]
        exact ih r (by simp at hl; omega)
      · rw [show removeDotDot (c :: c2 :: r) = c :: removeDotDot (c2 :: r) from by
          simp only [removeDotDot]; rw [if_neg hdd]]
        have ihr := ih (c2 :: r) (by simp at hl ⊢; omega)
        cases hrm : removeDotDot (c2 :: r) with
        | nil => rfl
        | cons d ds =>
          rw [hrm] at ihr
          rw [hasDotDot_cons_cons, ihr, Bool.or_false]
          by_cases hc : c = '.'
          · have hc2 : c2 ≠ '.' := fun h2 => hdd ⟨hc, h2⟩
            rw [removeDotDot_cons_ne c2 r hc2] at hrm
            have hd : d = c2 := by
              have := (List.cons.injEq c2 (removeDotDot r) d ds).mp hrm
              exact this.1.symm
            simp [hc, hd, hc2]
          · simp [hc]

/-- Helper: dropping a prefix of a dot-free string keeps it dot-free. -/
theorem hasDotDot_dropWhile (p : Char → Bool) (l : List Char)
    (h : hasDotDot l = false) : hasDotDot (l.dropWhile p) = false := by
  induction l with
  | nil => exact h
  | cons a r ih =>
    rw [List.dropWhile_cons]
    by_cases hp : p a = true
    · simp only [hp, if_true]
      exact ih (hasDotDot_tail h)
    · simp only [hp, if_false]
      exact h

/-- Helper: the first element surviving `dropWhile` fails the predicate. -/
theorem dropWhile_head_not (p : Char → Bool) (l : List Char) (c : Char)
    (t : List Char) (h : l.dropWhile p = c :: t) : p c = false := by
  induction l with
  | nil => simp at h
  | cons a r ih =>
    rw [List.dropWhile_cons] at h
    by_cases hp : p a = true
    · simp only [hp, if_true] at h
      exact ih h
    · simp only [hp, if_false] at h
      cases h
      exact Bool.not_eq_true _ ▸ hp

/-- Helper: `splitSegs` always returns at least one segment. -/
theorem splitSegs_ne_nil (l : List Char) : splitSegs l ≠ [] := by
  cases l with
  | nil => simp [splitSegs]
  | cons c cs =>
    simp only [splitSegs]
    by_cases hc : c = '/'
    · simp [hc]
    · simp [hc]

/-- Helper: a nonempty first segment starts with the first character of the
string. -/
theorem splitSegs_head_eq (l : List Char) (c : Char) (k : List Char)
    (t : List (List Char)) (h : splitSegs l = (c :: k) :: t) :
    l.head? = some c := by
  cases l with
  | nil =>
    simp [splitSegs] at h
  | cons a cs =>
    simp only [splitSegs] at h
    by_cases ha : a = '/'
    · rw [if_pos ha] at h
      exact absurd (List.cons.injEq _ _ _ _ ▸ h).1 (by simp)
    · rw [if_neg ha] at h
      have := (List.cons.injEq _ _ _ _ ▸ h).1
      have hac := (List.cons.injEq _ _ _ _ ▸ this).1
      simp [hac]

/-- Helper: a dot-free string splits into segments none of which is `..`. -/
theorem splitSegs_no_dotdot (l : List Char) (h : hasDotDot l = false) :
    ∀ s ∈ splitSegs l, s ≠ ['.', '.'] := by
  induction l with
  | nil =>
    intro s hs
    simp [splitSegs] at hs
    simp [hs]
  | cons c cs ih =>
    intro s hs
    have hcs : hasDotDot cs = false := hasDotDot_tail h
    obtain ⟨h0, t0, hsplit⟩ :
        ∃ h0 t0, splitSegs cs = h0 :: t0 := by
      cases hsp : splitSegs cs with
      | nil => exact absurd hsp (splitSegs_ne_nil cs)
      | cons x xs => exact ⟨x, xs, rfl⟩
    simp only [splitSegs, hsplit] at hs
    by_cases hc : c = '/'
    · rw [if_pos hc] at hs
      rcases List.mem_cons.mp hs with hnil | hmem
      · simp [hnil]
      · exact ih hcs s (hsplit ▸ hmem)
    · rw [if_neg hc] at hs
      rcases List.mem_cons.mp hs with hhead | hmem
      · subst hhead
        intro hdd
        obtain ⟨hc', h2⟩ := (List.cons.injEq _ _ _ _).mp hdd
        rw [List.headD_cons] at h2
        have hhead2 : cs.head? = some '.' := by
          apply splitSegs_head_eq cs '.' [] t0
          rw [hsplit, h2]
        cases cs with
        | nil => simp at hhead2
        | cons b bs =>
          have hb : b = '.' := by simpa using hhead2
          rw [hc', hb] at h
          rw [hasDotDot_cons_cons] at h
          simp at h
      · exact ih hcs s (by
          rw [hsplit]
          exact List.mem_cons_of_mem h0 hmem)

/-- Helper: with no `..` segment, path resolution only ever descends, so the
base directory stays a prefix of the resolved path. -/
theorem resolvePath_keeps_base (segs : List (List Char))
    (h : ∀ s ∈ segs, s ≠ ['.', '.']) :
    ∀ base, base <+: resolvePath base segs := by
  induction segs with
  | nil =>
    intro base
    exact List.prefix_rfl
  | cons s rest ih =>
    intro base
    have hs : s ≠ ['.', '.'] := h s (List.mem_cons_self s rest)
    have hrest : ∀ x ∈ rest, x ≠ ['.', '.'] :=
      fun x hx => h x (List.mem_cons_of_mem s hx)
    simp only [resolvePath]
    rw [if_neg hs]
    by_cases hskip : s = [] ∨ s = ['.']
    · rw [if_pos hskip]
      exact ih hrest base
    · rw [if_neg hskip]
      exact List.IsPrefix.trans (List.prefix_append base [s]) (ih hrest (base ++ [s]))

/-- C10 (implicit): key sanitization confines storage paths to the base
directory.  The sanitized key (`key.replace("..", "").lstrip("/")`) never
contains a `..` substring (hence no `..` path segment), never starts with a
slash, and resolving its segments under any base directory keeps the base as
a prefix of the resolved path — no key can address a file outside
`base_path`. -/
theorem C10_sanitize_confines (key : List Char) :
    hasDotDot (sanitizeKey key) = false
    ∧ (∀ c t, sanitizeKey key = c :: t → c ≠ '/')
    ∧ (∀ s ∈ splitSegs (sanitizeKey key), s ≠ ['.', '.'])
    ∧ (∀ base, base <+: resolvePath base (splitSegs (sanitizeKey key))) := by
  have hnodd : hasDotDot (sanitizeKey key) = false := by
    unfold sanitizeKey
    exact hasDotDot_dropWhile _ _
      (hasDotDot_removeDotDot key.length key (Nat.le_refl _))
  refine ⟨hnodd, ?_, splitSegs_no_dotdot _ hnodd,
    resolvePath_keeps_base _ (splitSegs_no_dotdot _ hnodd)⟩
  intro c t hct hc
  have := dropWhile_head_not (fun x => x = '/') (removeDotDot key) c t hct
  rw [hc] at this
  simp at this

/-- Witness for C10 on the classic traversal key `../../etc/passwd`. -/
theorem C10_sanitize_confines_witness :
    hasDotDot (sanitizeKey ("../../etc/passwd".toList)) = false
    ∧ (['s'] ≠ ['.', '.'])
    ∧ ([['b'], ['a'], ['s'], ['e']] <+:
        resolvePath [['b'], ['a'], ['s'], ['e']]
          (splitSegs (sanitizeKey ("../../etc/passwd".toList)))) := by
  refine ⟨(C10_sanitize_confines ("../../etc/passwd".toList)).1, by decide,
    (C10_sanitize_confines ("../../etc/passwd".toList)).2.2.2
      [['b'], ['a'], ['s'], ['e']]⟩

/-- Helper: XOR with the keystream distributes over append, with the offset
advanced by the first part's length. -/
theorem ctrXor_append (ks : Nat → Nat) (off : Nat) (a b : List Nat) :
    ctrXor ks off (a ++ b) = ctrXor ks off a ++ ctrXor ks (off + a.length) b := by
  induction a generalizing off with
  | nil => simp [ctrXor]
  | cons x xs ih =>
    simp only [List.cons_append, ctrXor, List.length_cons]
    change (x ^^^ ks off) :: ctrXor ks (off + 1) (xs ++ b) = _
    rw [ih, show off + 1 + xs.length = off + (xs.length + 1) from by omega]

/-- Helper: chunk-wise CTR processing equals flat CTR processing of the
concatenated content — chunk boundaries are irrelevant to the byte stream. -/
theorem ctrChunks_join (ks : Nat → Nat) (off : Nat) (cs : List (List Nat)) :
    (ctrChunks ks off cs).flatten = ctrXor ks off cs.flatten := by
  induction cs generalizing off with
  | nil => simp [ctrChunks, ctrXor]
  | cons c rest ih =>
    simp only [ctrChunks, List.flatten_cons, ctrXor_append, ih]

/-- Helper: XOR with the same keystream twice is the identity. -/
theorem ctrXor_involution (ks : Nat → Nat) (off : Nat) (l : List Nat) :
    ctrXor ks off (ctrXor ks off l) = l := by
  induction l generalizing off with
  | nil => rfl
  | cons b bs ih =>
    simp only [ctrXor, ih]
    rw [Nat.xor_assoc, Nat.xor_self, Nat.xor_zero]

/-- C8: AES-CTR stream encryption round-trip.  For any keystream derivation
`ksOf` (abstracting AES-CTR on `(key, iv)`), `stream_and_encrypt` yields the
16-byte IV as its first chunk followed by the running-state ciphertext, and
`decrypt_stream` on the encrypted stream — or on any re-chunking `cs` of its
ciphertext tail — reproduces exactly the original concatenated content. -/
theorem C8_encrypt_roundtrip (ksOf : List Nat → List Nat → Nat → Nat)
    (key iv : List Nat) (chunks cs : List (List Nat))
    (hiv : iv.length = 16)
    (hcs : cs.flatten = ((streamAndEncrypt ksOf key iv chunks).tail).flatten) :
    (streamAndEncrypt ksOf key iv chunks).head? = some iv
    ∧ (∀ c, (streamAndEncrypt ksOf key iv chunks).head? = some c →
        c.length = 16)
    ∧ (decryptStream ksOf key (streamAndEncrypt ksOf key iv chunks)).map
        List.flatten = some chunks.flatten
    ∧ (decryptStream ksOf key (iv :: cs)).map List.flatten = some chunks.flatten := by
  refine ⟨rfl, ?_, ?_, ?_⟩
  · intro c hc
    have hci : iv = c := by
      simpa [streamAndEncrypt] using hc
    rw [← hci, hiv]
  · show some (ctrChunks (ksOf key iv) 0 (ctrChunks (ksOf key iv) 0 chunks)).flatten
        = some chunks.flatten
    rw [ctrChunks_join, ctrChunks_join, ctrXor_involution]
  · show some (ctrChunks (ksOf key iv) 0 cs).flatten = some chunks.flatten
    rw [ctrChunks_join, hcs]
    simp only [streamAndEncrypt, List.tail_cons]
    rw [ctrChunks_join, ctrXor_involution]

/-- Witness for C8 at a concrete keystream, key, IV and chunking. -/
theorem C8_encrypt_roundtrip_witness :
    let ksOf : List Nat → List Nat → Nat → Nat := fun k iv n => (k.sum + iv.sum + n) % 256
    let iv : List Nat := [0, 1, 2, 3, 4, 5, 6, 7, 8, 9, 10, 11, 12, 13, 14, 15]
    let chunks : List (List Nat) := [[104, 105], [], [33]]
    let cs : List (List Nat) := [[104 ^^^ 127], [105 ^^^ 128, 33 ^^^ 129]]
    iv.length = 16
    ∧ cs.flatten = ((streamAndEncrypt ksOf [7] iv chunks).tail).flatten
    ∧ (streamAndEncrypt ksOf [7] iv chunks).head? = some iv
    ∧ (decryptStream ksOf [7] (streamAndEncrypt ksOf [7] iv chunks)).map
        List.flatten = some chunks.flatten
    ∧ (decryptStream ksOf [7] (iv :: cs)).map List.flatten = some chunks.flatten := by
  intro ksOf iv chunks cs
  have h := C8_encrypt_roundtrip ksOf [7] iv chunks cs (by decide) (by decide)
  exact ⟨by decide, by decide, h.1, h.2.2.1, h.2.2.2⟩

/-- C7 (code bug): requesting the inclusive byte range `[0, 0]` from a 2-byte
object streams the whole object (both bytes) instead of exactly one byte,
because `end = end or file_size` treats the requested `end = 0` as absent;
the neighbouring ranges `[0, 1]` and `[1, 1]` stream as specified. -/
theorem C7_range_end_zero_bug :
    (streamFile [65, 66] (some 0) (some 0) 8192).flatten = [65, 66]
    ∧ (streamFile [65, 66] (some 0) (some 0) 8192).flatten.length = 2
    ∧ (streamFile [65, 66] (some 0) (some 1) 8192).flatten = [65, 66]
    ∧ (streamFile [65, 66] (some 1) (some 1) 8192).flatten = [66] := by
  exact ⟨rfl, rfl, rfl, rfl⟩

/-- Concrete environment used by the counterexamples and witnesses: every
byte string hashes to `"H"` and sniffs as `text/plain`; generous limits. -/
def env0 : Env :=
  { md5 := fun _ => "H"
    sniffMime := fun _ => "text/plain"
    pageMaxLimit := 100
    sizeLimit := 1000000
    publicAccessDefault := true
    now := 5 }

/-- Fixture for C3: a public-READ file owned by user 1. -/
def rowPub : FileRec :=
  { uid := 1, user_id := 1, business_name := "b", filename := "pub.txt"
    filehash := some "H1", s3_key := some "b/H1", content_type := "text/plain"
    size := 1, public_permission := .READ }

/-- Fixture for C3: a private file owned by user 1 with an ACL entry granting
exactly READ to user 2. -/
def rowAcl : FileRec :=
  { uid := 2, user_id := 1, business_name := "b", filename := "acl.txt"
    filehash := some "H2", s3_key := some "b/H2", content_type := "text/plain"
    size := 1, permissions := [⟨2, .READ⟩], public_permission := .NONE }

/-- Fixture state for C3. -/
def stC3 : St :=
  { files := [rowPub, rowAcl], objects := [], storage := [], nextUid := 3 }

/-- C3 counterexample: user 2 lists the root of business `b`.  The claimed
visibility rule makes both nodes visible (one has `public_permission = READ`,
the other an ACL entry of exactly READ for user 2), yet `list_files` returns
no rows: the listing query checks only ownership or an ACL entry with
permission strictly greater than READ, and never `public_permission`. -/
theorem C3_counterexample :
    permRead rowPub.public_permission = true
    ∧ (∃ p ∈ rowAcl.permissions, p.user_id = 2 ∧ permRead p.permission = true)
    ∧ listFiles env0 stC3 { user_id := some 2, business_name := "b" } =
        .ok ([], 0) := by
  refine ⟨rfl, by decide, rfl⟩

/-- Helper: membership in the stable insertion. -/
theorem mem_insertUpdatedDesc (x r : FileRec) (l : List FileRec) :
    x ∈ insertUpdatedDesc r l ↔ x = r ∨ x ∈ l := by
  induction l with
  | nil => simp [insertUpdatedDesc]
  | cons y ys ih =>
    simp only [insertUpdatedDesc]
    by_cases hlt : y.updated_at < r.updated_at
    · simp only [if_pos hlt, List.mem_cons]
    · simp only [if_neg hlt, List.mem_cons, ih]
      tauto

/-- Helper: the sort is a permutation as far as membership is concerned. -/
theorem mem_sortUpdatedDesc (x : FileRec) (l : List FileRec) :
    x ∈ sortUpdatedDesc l ↔ x ∈ l := by
  induction l with
  | nil => simp [sortUpdatedDesc]
  | cons y ys ih =>
    simp only [sortUpdatedDesc]
    rw [mem_insertUpdatedDesc]
    simp [List.mem_cons, ih]

/-- Helper: insertion preserves length. -/
theorem length_insertUpdatedDesc (r : FileRec) (l : List FileRec) :
    (insertUpdatedDesc r l).length = l.length + 1 := by
  induction l with
  | nil => rfl
  | cons y ys ih =>
    simp only [insertUpdatedDesc]
    by_cases hlt : y.updated_at < r.updated_at
    · simp [hlt]
    · simp [hlt, ih]

/-- Helper: sorting preserves length. -/
theorem length_sortUpdatedDesc (l : List FileRec) :
    (sortUpdatedDesc l).length = l.length := by
  induction l with
  | nil => rfl
  | cons y ys ih =>
    simp only [sortUpdatedDesc]
    rw [length_insertUpdatedDesc, ih]
    rfl

/-- C3 amended: listing visibility.  In the general (non-`file_id`) branch of
`list_files`, a node that passes the business/parent/deletion/name filters
appears in the results if and only if the caller owns it or holds an ACL
entry with permission level strictly greater than READ; `public_permission`
and root/admin override play no part in listings (an anonymous caller gets no
rows, and `root_permission` is consulted only in the single-file branch). -/
theorem C3_amended_listing_visibility (env : Env) (st : St) (a : ListArgs)
    (u : Nat) (r : FileRec)
    (hu : a.user_id = some u) (hfid : a.file_id = none) (hoff : a.offset = 0)
    (hlim : st.files.length ≤ min a.limit env.pageMaxLimit)
    (hr : r ∈ st.files)
    (hdel : r.is_deleted = a.is_deleted)
    (hbiz : r.business_name = a.business_name)
    (hpar : parentFilterActive a = true → r.parent_id = a.parent_id)
    (hfh : ∀ x, a.filehash = some x → r.filehash = some x)
    (hfn : ∀ x, a.filename = some x → r.filename = x)
    (hdir : ∀ x, a.is_directory = some x → r.is_directory = x)
    (hct : ∀ x, a.content_type = some x → r.content_type = x) :
    ∀ items total, listFiles env st a = .ok (items, total) →
      (r ∈ items ↔ (r.user_id = u ∨ ∃ p ∈ r.permissions, p.user_id = u ∧
          PermissionEnum.READ.toNat < p.permission.toNat)) := by
  intro items total heq
  have hq : listQueryMatches a u r =
      (r.user_id = u
        || r.permissions.any (fun p => p.user_id = u && p.permission.gt .READ)) := by
    unfold listQueryMatches
    rw [hdel, hbiz]
    have hpar' : (!parentFilterActive a || r.parent_id = a.parent_id) = true := by
      by_cases hp : parentFilterActive a = true
      · simp [hp, hpar hp]
      · have hpf : parentFilterActive a = false := by simpa using hp
        simp [hpf]
    rw [hpar']
    cases hx : a.filehash with
    | none =>
      cases hy : a.filename with
      | none =>
        cases hz : a.is_directory with
        | none =>
          cases hw : a.content_type with
          | none => simp
          | some c => simp [hct c hw]
        | some d =>
          cases hw : a.content_type with
          | none => simp [hdir d hz]
          | some c => simp [hdir d hz, hct c hw]
      | some n =>
        cases hz : a.is_directory with
        | none =>
          cases hw : a.content_type with
          | none => simp [hfn n hy]
          | some c => simp [hfn n hy, hct c hw]
        | some d =>
          cases hw : a.content_type with
          | none => simp [hfn n hy, hdir d hz]
          | some c => simp [hfn n hy, hdir d hz, hct c hw]
    | some x =>
      cases hy : a.filename with
      | none =>
        cases hz : a.is_directory with
        | none =>
          cases hw : a.content_type with
          | none => simp [hfh x hx]
          | some c => simp [hfh x hx, hct c hw]
        | some d =>
          cases hw : a.content_type with
          | none => simp [hfh x hx, hdir d hz]
          | some c => simp [hfh x hx, hdir d hz, hct c hw]
      | some n =>
        cases hz : a.is_directory with
        | none =>
          cases hw : a.content_type with
          | none => simp [hfh x hx, hfn n hy]
          | some c => simp [hfh x hx, hfn n hy, hct c hw]
        | some d =>
          cases hw : a.content_type with
          | none => simp [hfh x hx, hfn n hy, hdir d hz]
          | some c => simp [hfh x hx, hfn n hy, hdir d hz, hct c hw]
  simp only [listFiles, hfid, hu] at heq
  have hitems : items =
      ((sortUpdatedDesc (st.files.filter (listQueryMatches a u))).drop
        a.offset).take (min a.limit env.pageMaxLimit) := by
    have := heq
    injection this with h1
    injection h1 with h2 h3
    exact h2.symm
  have hlen : (sortUpdatedDesc (st.files.filter (listQueryMatches a u))).length
      ≤ min a.limit env.pageMaxLimit := by
    rw [length_sortUpdatedDesc]
    exact le_trans (List.length_filter_le _ _) hlim
  rw [hitems, hoff, List.drop_zero, List.take_of_length_le hlen,
    mem_sortUpdatedDesc, List.mem_filter, hq]
  constructor
  · intro hmem
    have hb := hmem.2
    rcases Bool.or_eq_true _ _ |>.mp hb with howner | hacl
    · exact Or.inl (by simpa using howner)
    · right
      rw [List.any_eq_true] at hacl
      obtain ⟨p, hp, hpp⟩ := hacl
      rw [Bool.and_eq_true] at hpp
      exact ⟨p, hp, by simpa using hpp.1, by
        have := hpp.2
        simp [PermissionEnum.gt] at this
        exact this⟩
  · intro hvis
    refine ⟨hr, ?_⟩
    rcases hvis with howner | ⟨p, hp, hpu, hpgt⟩
    · simp [howner]
    · apply Bool.or_eq_true _ _ |>.mpr
      right
      rw [List.any_eq_true]
      exact ⟨p, hp, by
        rw [Bool.and_eq_true]
        exact ⟨by simp [hpu], by simp [PermissionEnum.gt]; exact hpgt⟩⟩

/-- Witness for the amended C3 at a concrete state: the owner sees their own
row in the listing. -/
theorem C3_amended_listing_visibility_witness :
    rowPub ∈ [rowPub] ↔ (rowPub.user_id = 1 ∨ ∃ p ∈ rowPub.permissions,
      p.user_id = 1 ∧ PermissionEnum.READ.toNat < p.permission.toNat) := by
  have h := C3_amended_listing_visibility env0
    { files := [rowPub], objects := [], storage := [], nextUid := 2 }
    { user_id := some 1, business_name := "b" } 1 rowPub rfl rfl rfl
    (by decide) (by decide) (by decide) (by decide)
    (by intro hp; decide) (by intro x hx; cases hx) (by intro x hx; cases hx)
    (by intro x hx; cases hx) (by intro x hx; cases hx)
  exact h [rowPub] 1 rfl

/-- Fixture for C1: an existing upload `notes.txt` of hash `H` at the root,
owned by user 7. -/
def rowNotes : FileRec :=
  { uid := 1, user_id := 7, business_name := "biz", filename := "notes.txt"
    filehash := some "H", s3_key := some "biz/H", content_type := "text/plain"
    size := 10, updated_at := 1 }

/-- Fixture for C1: the stored object of hash `H`. -/
def objH : ObjRec := ⟨"biz", "biz/H", 10, "H", "text/plain"⟩

/-- Fixture state for C1. -/
def stC1 : St :=
  { files := [rowNotes], objects := [objH], storage := ["biz/H"], nextUid := 2 }

/-- C1 counterexample: re-uploading the same 10 bytes (same hash `H`, same
root parent, same owner) under the different filename `copy.txt` does not
return the existing row's UID: the dedup query filters by `(filehash,
filename)`, so a second `FileMetaData` row (UID 2) is created — though no
second `ObjectMetaData` appears, since the storage key `biz/H` exists. -/
theorem C1_counterexample :
    env0.md5 [0, 1, 2, 3, 4, 5, 6, 7, 8, 9] = "H"
    ∧ rowNotes.filehash = some "H"
    ∧ rowNotes.parent_id = none
    ∧ (routeUploadFile env0 stC1 7 "biz" none (some "copy.txt") "copy.txt"
        [0, 1, 2, 3, 4, 5, 6, 7, 8, 9] none true).map
        (fun p => (p.1.uid, p.2.files.length, p.2.objects.length)) =
        .ok (2, 2, 1) := by
  exact ⟨rfl, rfl, rfl, rfl⟩

/-- Helper: `find?` on a list whose members all equal `r` returns `r` when
the list is nonempty and `r` satisfies the predicate. -/
theorem find?_all_eq {α : Type} (p : α → Bool) (l : List α) (r : α)
    (hne : l ≠ []) (hall : ∀ x ∈ l, x = r) (hp : p r = true) :
    l.find? p = some r := by
  cases l with
  | nil => exact absurd rfl hne
  | cons x xs =>
    have hx : x = r := hall x (List.mem_cons_self x xs)
    rw [List.find?_cons, hx, hp]

/-- Helper: `Except.bind` on a success value applies the continuation. -/
theorem exc_bind_ok {e a b : Type} (x : a) (f : a → Except e b) :
    (Except.ok x : Except e a) >>= f = f x := rfl

/-- C1 amended: upload deduplication is idempotent per (content hash, parent
directory, filename) triple.  When an existing visible non-deleted row of the
same owner matches the uploaded bytes' hash AND the supplied filename AND the
target parent, `process_file` returns that row unchanged and the subsequent
`save()` is a no-op: no new `FileMetaData` row and no new `ObjectMetaData`
row. -/
theorem C1_amended_dedup (env : Env) (st : St) (user : Nat) (bn : String)
    (parent : Option Nat) (fn : String) (bytes : List Nat)
    (pubKw : Option PermissionEnum) (acc : Bool) (r : FileRec)
    (hslash : strContainsSlash fn = false)
    (hsize : bytes.length ≤ env.sizeLimit)
    (hr : r ∈ st.files)
    (hhash : r.filehash = some (env.md5 bytes))
    (hname : r.filename = fn)
    (hpar : r.parent_id = parent)
    (hdel : r.is_deleted = false)
    (hbiz : r.business_name = bn)
    (hown : r.user_id = user)
    (hlim : 1 ≤ env.pageMaxLimit)
    (huniq : ∀ x ∈ st.files, listQueryMatches
      { user_id := some user, business_name := bn
        filehash := some (env.md5 bytes), filename := some fn } user x = true →
      x = r)
    (huid : ∀ x ∈ st.files, x.uid = r.uid → x = r) :
    routeUploadFile env st user bn parent (some fn) fn bytes pubKw acc =
      .ok (r, st) := by
  have hq : listQueryMatches
      { user_id := some user, business_name := bn
        filehash := some (env.md5 bytes), filename := some fn } user r = true := by
    unfold listQueryMatches parentFilterActive
    simp [hhash, hname, hdel, hbiz, hown]
  set a : ListArgs :=
    { user_id := some user, business_name := bn
      filehash := some (env.md5 bytes), filename := some fn } with ha
  have hmem : r ∈ st.files.filter (listQueryMatches a user) :=
    List.mem_filter.mpr ⟨hr, hq⟩
  have hpos : 0 < (st.files.filter (listQueryMatches a user)).length :=
    List.length_pos.mpr (List.ne_nil_of_mem hmem)
  set items : List FileRec :=
    ((sortUpdatedDesc (st.files.filter (listQueryMatches a user))).drop
      0).take (min 10 env.pageMaxLimit) with hitems
  have hall : ∀ x ∈ items, x = r := by
    intro x hx
    rw [hitems] at hx
    have hx1 := List.mem_of_mem_take hx
    rw [List.drop_zero, mem_sortUpdatedDesc] at hx1
    have hx2 := List.mem_filter.mp hx1
    exact huniq x hx2.1 hx2.2
  have hne : items ≠ [] := by
    have hlen : items.length = min (min 10 env.pageMaxLimit)
        (sortUpdatedDesc (st.files.filter (listQueryMatches a user))).length := by
      rw [hitems, List.drop_zero, List.length_take]
    have : 0 < items.length := by
      rw [hlen, length_sortUpdatedDesc]
      have h10 : 1 ≤ min 10 env.pageMaxLimit := by omega
      omega
    exact List.ne_nil_of_length_pos this
  have hfind : items.find? (fun e => e.parent_id = parent) = some r :=
    find?_all_eq _ items r hne hall (by simp [hpar])
  have hsave : saveDoc st r = st := by
    unfold saveDoc
    have hany : st.files.any (fun x => x.uid = r.uid) = true := by
      rw [List.any_eq_true]
      exact ⟨r, hr, by simp⟩
    rw [if_pos hany]
    have hmap : st.files.map (fun x => if x.uid = r.uid then r else x)
        = st.files := by
      have hcongr : ∀ x ∈ st.files,
          (if x.uid = r.uid then r else x) = id x := by
        intro x hx
        show (if x.uid = r.uid then r else x) = x
        by_cases hxe : x.uid = r.uid
        · rw [if_pos hxe, huid x hx hxe]
        · rw [if_neg hxe]
      rw [List.map_congr_left hcongr, List.map_id]
    rw [hmap]
  have hsize' : ¬ env.sizeLimit < bytes.length := Nat.not_lt.mpr hsize
  unfold routeUploadFile processFile
  simp only [hslash, Bool.false_eq_true, if_false, hsize', listFiles, exc_bind_ok]
  rw [← ha, ← hitems]
  simp only [hfind, exc_bind_ok]
  rw [hsave]

/-- Witness for the amended C1: re-uploading the same bytes with the same
filename `notes.txt` returns the existing row and leaves the state
untouched. -/
theorem C1_amended_dedup_witness :
    (strContainsSlash "notes.txt" = false)
    ∧ rowNotes ∈ stC1.files
    ∧ routeUploadFile env0 stC1 7 "biz" none (some "notes.txt") "notes.txt"
        [0, 1, 2, 3, 4, 5, 6, 7, 8, 9] none true = .ok (rowNotes, stC1) := by
  refine ⟨by decide, by decide, ?_⟩
  exact C1_amended_dedup env0 stC1 7 "biz" none "notes.txt"
    [0, 1, 2, 3, 4, 5, 6, 7, 8, 9] none true rowNotes (by decide) (by decide)
    (by decide) (by decide) (by decide) (by decide) (by decide) (by decide)
    (by decide) (by decide) (by decide) (by decide)

/-- Fixture for C5: an already soft-deleted file owned by user 7. -/
def rowDel : FileRec :=
  { uid := 1, user_id := 7, business_name := "b", filename := "f.txt"
    filehash := some "H", s3_key := some "b/H", content_type := "text/plain"
    size := 10, is_deleted := true, deleted_at := some 3, updated_at := 1 }

/-- Fixture state for C5: the deleted row, its object and its stored bytes. -/
def stC5 : St :=
  { files := [rowDel], objects := [⟨"b", "b/H", 10, "H", "text/plain"⟩]
    storage := ["b/H"], nextUid := 2 }

/-- C5 counterexample: invoking `delete` again on an already soft-deleted
node is not a no-op — the row is removed, and since no other row references
`b/H`, the `ObjectMetaData` row and the stored object are removed too. -/
theorem C5_counterexample :
    rowDel.is_deleted = true
    ∧ permDelete (userPermission rowDel (some 7)) = true
    ∧ (deleteOp 2 env0 7 stC5 rowDel).map
        (fun s => (s.files.length, s.objects.length, s.storage.length)) =
        .ok (0, 0, 0) := by
  exact ⟨rfl, rfl, rfl⟩

/-- C5 amended: `delete` on an already soft-deleted file node hard-deletes
it: the row is removed; when other rows still reference the storage key the
object ledger and storage are untouched, and when none remain the
`ObjectMetaData` row and the stored object are deleted. -/
theorem C5_amended_second_delete_hard (fuel : Nat) (env : Env) (actor : Nat)
    (st : St) (self : FileRec) (k : String) (o0 : ObjRec)
    (hfuel : 1 ≤ fuel) (hdir : self.is_directory = false)
    (hdel : self.is_deleted = true)
    (hperm : permDelete (userPermission self (some actor)) = true)
    (hkey : self.s3_key = some k)
    (hobj : st.objects.find? (fun o => o.s3_key = k) = some o0) :
    ∃ st', deleteOp fuel env actor st self = .ok st'
      ∧ st'.files = st.files.filter (fun r => r.uid ≠ self.uid)
      ∧ (((st.files.filter (fun r => r.uid ≠ self.uid)).filter
            (fun r => r.s3_key = self.s3_key)).length ≠ 0 →
          st'.objects = st.objects ∧ st'.storage = st.storage)
      ∧ (((st.files.filter (fun r => r.uid ≠ self.uid)).filter
            (fun r => r.s3_key = self.s3_key)).length = 0 →
          st'.objects = st.objects.filter (fun o => o.s3_key ≠ k)
          ∧ st'.storage = st.storage.filter (fun s => s ≠ k)) := by
  obtain ⟨f, rfl⟩ : ∃ f, fuel = f + 1 := ⟨fuel - 1, by omega⟩
  have hko : o0.s3_key = k := by
    have := List.find?_some hobj
    simpa using this
  unfold deleteOp
  rw [hperm]
  simp only [Bool.not_true, Bool.false_eq_true, if_false, hdir, hdel,
    Bool.not_false, if_true, exc_bind_ok]
  set remaining := st.files.filter (fun r => r.uid ≠ self.uid) with hrem
  have hst2 : removeRow st self.uid =
      { st with files := remaining } := by
    unfold removeRow
    rw [hrem]
  rw [hst2]
  by_cases hzero : (remaining.filter (fun r => r.s3_key = self.s3_key)).length = 0
  · rw [if_pos hzero]
    have hfind : findObj { st with files := remaining } self.s3_key = some o0 := by
      unfold findObj
      rw [hkey]
      exact hobj
    simp only [hfind]
    have hcnt : ¬ (remaining.filter
        (fun r => r.s3_key = some o0.s3_key)).length ≠ 0 := by
      rw [hko, ← hkey]
      simpa using hzero
    have hod : objDelete { st with files := remaining } o0 =
        { st with
          files := remaining
          storage := st.storage.filter (fun s2 => s2 ≠ o0.s3_key)
          objects := st.objects.filter (fun x => x.s3_key ≠ o0.s3_key) } := by
      unfold objDelete
      rw [if_neg hcnt]
    rw [hod]
    refine ⟨_, rfl, rfl, fun hne => absurd hzero hne, fun _ => ⟨?_, ?_⟩⟩
    · rw [hko]
    · rw [hko]
  · rw [if_neg hzero]
    exact ⟨_, rfl, rfl, fun _ => ⟨rfl, rfl⟩, fun hz => absurd hz hzero⟩

/-- Witness for the amended C5 at the concrete fixture (no other row
references the key, so the object and stored bytes go too). -/
theorem C5_amended_second_delete_hard_witness :
    rowDel.is_deleted = true
    ∧ ∃ st', deleteOp 2 env0 7 stC5 rowDel = .ok st'
      ∧ st'.files = stC5.files.filter (fun r => r.uid ≠ rowDel.uid)
      ∧ (((stC5.files.filter (fun r => r.uid ≠ rowDel.uid)).filter
            (fun r => r.s3_key = rowDel.s3_key)).length ≠ 0 →
          st'.objects = stC5.objects ∧ st'.storage = stC5.storage)
      ∧ (((stC5.files.filter (fun r => r.uid ≠ rowDel.uid)).filter
            (fun r => r.s3_key = rowDel.s3_key)).length = 0 →
          st'.objects = stC5.objects.filter (fun o => o.s3_key ≠ "b/H")
          ∧ st'.storage = stC5.storage.filter (fun s => s ≠ "b/H")) := by
  refine ⟨rfl, ?_⟩
  exact C5_amended_second_delete_hard 2 env0 7 stC5 rowDel "b/H"
    ⟨"b", "b/H", 10, "H", "text/plain"⟩ (by decide) (by decide) (by decide)
    (by decide) (by decide) (by decide)

/-- Fixture for C6: a live (non-deleted) file owned by user 7. -/
def rowLive : FileRec :=
  { uid := 1, user_id := 7, business_name := "b", filename := "g.txt"
    filehash := some "G", s3_key := some "b/G", content_type := "text/plain"
    size := 10, updated_at := 1 }

/-- Fixture state for C6. -/
def stC6 : St :=
  { files := [rowLive], objects := [⟨"b", "b/G", 10, "G", "text/plain"⟩]
    storage := ["b/G"], nextUid := 2 }

/-- C6 counterexample: a delete request on a node with `is_deleted = false`
does not fail with any error — it succeeds and soft-deletes the node (row
kept, marked deleted; object ledger and storage untouched).  There is no
`InvalidState` failure anywhere on this path. -/
theorem C6_counterexample :
    rowLive.is_deleted = false
    ∧ (deleteOp 1 env0 7 stC6 rowLive).map
        (fun s => (s.files.map (fun r => (r.uid, r.is_deleted)),
          s.objects.length, s.storage.length)) =
        .ok ([(1, true)], 1, 1) := by
  exact ⟨rfl, rfl⟩

/-- C6 amended: the delete entrypoint applied to a non-soft-deleted file node
succeeds (no `InvalidState` error exists in this code) and performs the soft
delete: the row survives with `is_deleted = true` and `deleted_at = now`,
other rows are untouched, and no object row or stored bytes are removed.
Row removal (hard deletion) happens only on the already-soft-deleted
branch. -/
theorem C6_amended_delete_soft_first (fuel : Nat) (env : Env) (actor : Nat)
    (st : St) (self : FileRec)
    (hfuel : 1 ≤ fuel) (hdir : self.is_directory = false)
    (hdel : self.is_deleted = false)
    (hperm : permDelete (userPermission self (some actor)) = true) :
    deleteOp fuel env actor st self = .ok (markDeleted st self.uid env.now)
    ∧ (markDeleted st self.uid env.now).objects = st.objects
    ∧ (markDeleted st self.uid env.now).storage = st.storage
    ∧ (self ∈ st.files →
        { self with is_deleted := true, deleted_at := some env.now }
          ∈ (markDeleted st self.uid env.now).files)
    ∧ (∀ r ∈ st.files, r.uid ≠ self.uid →
        r ∈ (markDeleted st self.uid env.now).files) := by
  obtain ⟨f, rfl⟩ : ∃ f, fuel = f + 1 := ⟨fuel - 1, by omega⟩
  refine ⟨?_, rfl, rfl, ?_, ?_⟩
  · unfold deleteOp
    rw [hperm]
    simp only [Bool.not_true, Bool.false_eq_true, if_false, hdir, hdel,
      Bool.not_false, if_true, exc_bind_ok]
  · intro hself
    unfold markDeleted
    refine List.mem_map.mpr ⟨self, hself, ?_⟩
    rw [if_pos rfl]
  · intro r hr hne
    unfold markDeleted
    refine List.mem_map.mpr ⟨r, hr, ?_⟩
    rw [if_neg hne]

/-- Witness for the amended C6 at the concrete fixture. -/
theorem C6_amended_delete_soft_first_witness :
    rowLive.is_deleted = false
    ∧ deleteOp 1 env0 7 stC6 rowLive =
        .ok (markDeleted stC6 rowLive.uid env0.now)
    ∧ ({ rowLive with is_deleted := true, deleted_at := some env0.now }
        ∈ (markDeleted stC6 rowLive.uid env0.now).files) := by
  have h := C6_amended_delete_soft_first 1 env0 7 stC6 rowLive (by decide)
    (by decide) (by decide) (by decide)
  exact ⟨rfl, h.1, h.2.2.2.1 (by decide)⟩

/-- Soft-delete marking of a single row (`is_deleted = True`,
`deleted_at = now`). -/
def markRow (now : Nat) (r : FileRec) : FileRec :=
  { r with is_deleted := true, deleted_at := some now }

/-- Restore marking of a single row (`is_deleted = False`,
`deleted_at = None`). -/
def unmarkRow (r : FileRec) : FileRec :=
  { r with is_deleted := false, deleted_at := none }

/-- Mark every row whose uid satisfies `D` as soft-deleted. -/
def markIf (D : Nat → Bool) (now : Nat) (files : List FileRec) : List FileRec :=
  files.map (fun r => if D r.uid then markRow now r else r)

/-- Clear the soft-delete marker on every row whose uid satisfies `D`. -/
def unmarkIf (D : Nat → Bool) (files : List FileRec) : List FileRec :=
  files.map (fun r => if D r.uid then unmarkRow r else r)

/-- The rows whose `parent_id` points at `a`. -/
def childrenOf (st : St) (a : Nat) : List FileRec :=
  st.files.filter (fun r => r.parent_id = some a)

/-- The uids in the subtree rooted at `a`, following `parent_id` links
downward for at most `fuel` levels. -/
def subtreeIds : Nat → St → Nat → List Nat
  | 0, _, a => [a]
  | f + 1, st, a =>
    a :: ((childrenOf st a).map (fun c => subtreeIds f st c.uid)).flatten

/-- Fixture for C2: a directory owned by user 7. -/
def dirC2 : FileRec :=
  { uid := 1, user_id := 7, business_name := "b", filename := "d"
    is_directory := true, updated_at := 0 }

/-- Fixture for C2: the i-th child file of the directory. -/
def mkChild (i : Nat) : FileRec :=
  { uid := i, user_id := 7, business_name := "b", filename := "c"
    content_type := "t", size := 1, parent_id := some 1, updated_at := i }

/-- Fixture state for C2: the directory with eleven direct child files. -/
def stC2 : St :=
  { files := dirC2 :: (List.range' 2 11).map mkChild, objects := []
    storage := [], nextUid := 13 }

/-- C2 counterexample: the cascade lists children with the default pagination
(limit `min(10, page_max_limit)` sorted by `updated_at` descending), so
soft-deleting a directory with eleven direct child files leaves the child
with the oldest `updated_at` (uid 2) not deleted. -/
theorem C2_counterexample :
    (stC2.files.filter (fun r => r.parent_id = some dirC2.uid)).length = 11
    ∧ (mkChild 2).parent_id = some dirC2.uid
    ∧ (deleteOp 3 env0 7 stC2 dirC2).map
        (fun s => (s.files.filter (fun r => !r.is_deleted)).map
          (fun r => r.uid)) = .ok [2] := by
  exact ⟨rfl, rfl, rfl⟩

/-- A row transform that preserves the tree-shape fields (uid, parent,
owner, business, directory flag, sort timestamp) — only the deletion marker
may change. -/
def shapePres (g : FileRec → FileRec) : Prop :=
  ∀ r : FileRec,
    (g r).uid = r.uid ∧ (g r).parent_id = r.parent_id
    ∧ (g r).user_id = r.user_id ∧ (g r).business_name = r.business_name
    ∧ (g r).is_directory = r.is_directory ∧ (g r).updated_at = r.updated_at

/-- Helper: the soft-delete marking transform preserves the tree shape. -/
theorem shapePres_markIfF (D : Nat → Bool) (now : Nat) :
    shapePres (fun r => if D r.uid then markRow now r else r) := by
  intro r
  by_cases h : D r.uid <;> simp [h, markRow]

/-- Helper: the restore marking transform preserves the tree shape. -/
theorem shapePres_unmarkIfF (D : Nat → Bool) :
    shapePres (fun r => if D r.uid then unmarkRow r else r) := by
  intro r
  by_cases h : D r.uid <;> simp [h, unmarkRow]

/-- Helper: filtering by parent commutes with a shape-preserving map. -/
theorem filter_parent_map (g : FileRec → FileRec) (hg : shapePres g)
    (files : List FileRec) (a : Nat) :
    (files.map g).filter (fun r => r.parent_id = some a)
      = (files.filter (fun r => r.parent_id = some a)).map g := by
  rw [List.filter_map]
  congr 1
  apply List.filter_congr
  intro r _
  show decide ((g r).parent_id = some a) = decide (r.parent_id = some a)
  rw [(hg r).2.1]

/-- Helper: `childrenOf` is unchanged by a shape-preserving map, up to
mapping the children themselves. -/
theorem childrenOf_map (g : FileRec → FileRec) (hg : shapePres g) (st : St)
    (a : Nat) :
    childrenOf { st with files := st.files.map g } a
      = (childrenOf st a).map g := by
  unfold childrenOf
  exact filter_parent_map g hg st.files a

/-- Helper: subtree uid sets are invariant under a shape-preserving map. -/
theorem subtreeIds_map (g : FileRec → FileRec) (hg : shapePres g) (f : Nat)
    (st : St) : ∀ a,
    subtreeIds f { st with files := st.files.map g } a = subtreeIds f st a := by
  induction f with
  | zero => intro a; rfl
  | succ f ih =>
    intro a
    simp only [subtreeIds, childrenOf_map g hg, List.map_map]
    congr 1
    congr 1
    apply List.map_congr_left
    intro c _
    show subtreeIds f { st with files := st.files.map g } (g c).uid
        = subtreeIds f st c.uid
    rw [(hg c).1, ih]

/-- Helper: the uid list is invariant under a shape-preserving map. -/
theorem map_uid_map (g : FileRec → FileRec) (hg : shapePres g)
    (files : List FileRec) :
    (files.map g).map (fun r => r.uid) = files.map (fun r => r.uid) := by
  rw [List.map_map]
  apply List.map_congr_left
  intro r _
  exact (hg r).1

/-- Helper: a uid occurs in its own subtree at any fuel. -/
theorem self_mem_subtreeIds (f : Nat) (st : St) (a : Nat) :
    a ∈ subtreeIds f st a := by
  cases f with
  | zero => exact List.mem_singleton.mpr rfl
  | succ f => exact List.mem_cons_self _ _

/-- Helper: a child's subtree is contained in the parent's subtree at one
more unit of fuel. -/
theorem subtree_child_subset (f : Nat) (st : St) (a : Nat) (c : FileRec)
    (hc : c ∈ childrenOf st a) (u : Nat) (hu : u ∈ subtreeIds f st c.uid) :
    u ∈ subtreeIds (f + 1) st a := by
  simp only [subtreeIds]
  refine List.mem_cons_of_mem _ (List.mem_flatten.mpr ?_)
  exact ⟨subtreeIds f st c.uid, List.mem_map.mpr ⟨c, hc, rfl⟩, hu⟩

/-- Helper: a node with no child rows has a singleton subtree. -/
theorem subtree_no_children (f : Nat) (st : St) (a : Nat)
    (h : childrenOf st a = []) : subtreeIds f st a = [a] := by
  cases f with
  | zero => rfl
  | succ f => simp [subtreeIds, h]

/-- Well-formedness of the tree for the cascade theorems: the actor owns
every row and all rows share one business; uids are unique; a rank function
strictly decreases from parent to child (so parent links are acyclic);
parents are directories; and every node has at most `min 10 page_max_limit`
direct children (the listing page limit). -/
def TreeOk (env : Env) (actor : Nat) (bn : String) (rank : Nat → Nat)
    (st : St) : Prop :=
  (∀ r ∈ st.files, r.user_id = actor)
  ∧ (∀ r ∈ st.files, r.business_name = bn)
  ∧ (st.files.map (fun r => r.uid)).Nodup
  ∧ (∀ r ∈ st.files, ∀ p ∈ st.files, r.parent_id = some p.uid →
      rank r.uid < rank p.uid)
  ∧ (∀ r ∈ st.files, ∀ c ∈ st.files, c.parent_id = some r.uid →
      r.is_directory = true)
  ∧ (∀ r ∈ st.files, (childrenOf st r.uid).length ≤ min 10 env.pageMaxLimit)

/-- Helper: `TreeOk` survives a shape-preserving map of the rows. -/
theorem TreeOk_map (env : Env) (actor : Nat) (bn : String) (rank : Nat → Nat)
    (st : St) (g : FileRec → FileRec) (hg : shapePres g)
    (h : TreeOk env actor bn rank st) :
    TreeOk env actor bn rank { st with files := st.files.map g } := by
  obtain ⟨h1, h2, h3, h4, h5, h6⟩ := h
  refine ⟨?_, ?_, ?_, ?_, ?_, ?_⟩
  · intro r hr
    obtain ⟨r0, hr0, rfl⟩ := List.mem_map.mp hr
    rw [(hg r0).2.2.1]
    exact h1 r0 hr0
  · intro r hr
    obtain ⟨r0, hr0, rfl⟩ := List.mem_map.mp hr
    rw [(hg r0).2.2.2.1]
    exact h2 r0 hr0
  · show ((st.files.map g).map (fun r => r.uid)).Nodup
    rw [map_uid_map g hg]
    exact h3
  · intro r hr p hp hrp
    obtain ⟨r0, hr0, rfl⟩ := List.mem_map.mp hr
    obtain ⟨p0, hp0, rfl⟩ := List.mem_map.mp hp
    rw [(hg r0).1, (hg p0).1]
    apply h4 r0 hr0 p0 hp0
    rw [← (hg r0).2.1, ← (hg p0).1]
    exact hrp
  · intro r hr c hc hcr
    obtain ⟨r0, hr0, rfl⟩ := List.mem_map.mp hr
    obtain ⟨c0, hc0, rfl⟩ := List.mem_map.mp hc
    rw [(hg r0).2.2.2.2.1]
    apply h5 r0 hr0 c0 hc0
    rw [← (hg c0).2.1, ← (hg r0).1]
    exact hcr
  · intro r hr
    obtain ⟨r0, hr0, rfl⟩ := List.mem_map.mp hr
    rw [(hg r0).1]
    show (childrenOf { st with files := st.files.map g } r0.uid).length ≤ _
    rw [childrenOf_map g hg, List.length_map]
    exact h6 r0 hr0

/-- The direct child relation on rows: `c`'s `parent_id` points at `p`. -/
def childOf (st : St) (c p : FileRec) : Prop :=
  c ∈ st.files ∧ p ∈ st.files ∧ c.parent_id = some p.uid

/-- Helper: with unique uids, rows are determined by their uid. -/
theorem uid_inj (st : St) (hnd : (st.files.map (fun r => r.uid)).Nodup)
    {a b : FileRec} (ha : a ∈ st.files) (hb : b ∈ st.files)
    (h : a.uid = b.uid) : a = b :=
  List.inj_on_of_nodup_map hnd ha hb h

/-- Helper: `childOf` is right-unique — a row has at most one parent row. -/
theorem childOf_right_unique (st : St)
    (hnd : (st.files.map (fun r => r.uid)).Nodup) :
    Relator.RightUnique (childOf st) := by
  intro c p1 p2 h1 h2
  apply uid_inj st hnd h1.2.1 h2.2.1
  exact Option.some.inj (h1.2.2.symm.trans h2.2.2)

/-- Helper: membership in a subtree yields a parent-link chain from the
member's row up to the root row. -/
theorem subtree_to_chain (st : St) (f : Nat) : ∀ (a : Nat) (ra : FileRec),
    ra ∈ st.files → ra.uid = a → ∀ u, u ∈ subtreeIds f st a →
    ∃ ru ∈ st.files, ru.uid = u ∧ Relation.ReflTransGen (childOf st) ru ra := by
  induction f with
  | zero =>
    intro a ra hra huid u hu
    have : u = a := List.mem_singleton.mp hu
    exact ⟨ra, hra, by rw [huid, this], .refl⟩
  | succ f ih =>
    intro a ra hra huid u hu
    simp only [subtreeIds] at hu
    rcases List.mem_cons.mp hu with rfl | hmem
    · exact ⟨ra, hra, huid, .refl⟩
    · obtain ⟨l, hl, hul⟩ := List.mem_flatten.mp hmem
      obtain ⟨c, hc, rfl⟩ := List.mem_map.mp hl
      have hcf : c ∈ st.files := List.mem_of_mem_filter hc
      have hcp : c.parent_id = some a := by
        have := List.of_mem_filter hc
        simpa using this
      obtain ⟨ru, hru, hruid, hchain⟩ := ih c.uid c hcf rfl u hul
      refine ⟨ru, hru, hruid, hchain.tail ?_⟩
      exact ⟨hcf, hra, by rw [hcp, huid]⟩

/-- Helper: rank is monotone along a parent-link chain. -/
theorem rank_le_of_chain (env : Env) (actor : Nat) (bn : String)
    (rank : Nat → Nat) (st : St) (h : TreeOk env actor bn rank st)
    {x y : FileRec} (hxy : Relation.ReflTransGen (childOf st) x y) :
    rank x.uid ≤ rank y.uid := by
  induction hxy with
  | refl => exact Nat.le_refl _
  | tail _ hstep ih =>
    exact le_trans ih (Nat.le_of_lt
      (h.2.2.2.1 _ hstep.1 _ hstep.2.1 hstep.2.2))

/-- Helper: the subtrees of two distinct children of one node are disjoint
uid sets (parent links are functional and acyclic). -/
theorem sibling_subtrees_disjoint (env : Env) (actor : Nat) (bn : String)
    (rank : Nat → Nat) (st : St) (h : TreeOk env actor bn rank st)
    (s : FileRec) (hs : s ∈ st.files) (f : Nat) (c1 c2 : FileRec)
    (hc1 : c1 ∈ childrenOf st s.uid) (hc2 : c2 ∈ childrenOf st s.uid)
    (hne : c1 ≠ c2) (u : Nat) (hu1 : u ∈ subtreeIds f st c1.uid)
    (hu2 : u ∈ subtreeIds f st c2.uid) : False := by
  have hnd := h.2.2.1
  have hc1f : c1 ∈ st.files := List.mem_of_mem_filter hc1
  have hc2f : c2 ∈ st.files := List.mem_of_mem_filter hc2
  have hc1p : c1.parent_id = some s.uid := by
    have := List.of_mem_filter hc1
    simpa using this
  have hc2p : c2.parent_id = some s.uid := by
    have := List.of_mem_filter hc2
    simpa using this
  obtain ⟨r1, hr1, hru1, hch1⟩ := subtree_to_chain st f c1.uid c1 hc1f rfl u hu1
  obtain ⟨r2, hr2, hru2, hch2⟩ := subtree_to_chain st f c2.uid c2 hc2f rfl u hu2
  have hr12 : r1 = r2 := uid_inj st hnd hr1 hr2 (by rw [hru1, hru2])
  subst hr12
  have htot := Relation.ReflTransGen.total_of_right_unique
    (childOf_right_unique st hnd) hch1 hch2
  have key : ∀ a b : FileRec, a ∈ st.files → b ∈ st.files →
      a.parent_id = some s.uid → b.parent_id = some s.uid → a ≠ b →
      Relation.ReflTransGen (childOf st) a b → False := by
    intro a b haf hbf hap hbp hab hchain
    rcases hchain.cases_head with heq | ⟨m, hstep, hrest⟩
    · exact hab heq
    · have hm : m = s := childOf_right_unique st hnd hstep ⟨haf, hs, hap⟩
      rw [hm] at hrest
      have hle : rank s.uid ≤ rank b.uid :=
        rank_le_of_chain env actor bn rank st h hrest
      have hlt : rank b.uid < rank s.uid := h.2.2.2.1 b hbf s hs hbp
      omega
  rcases htot with hh | hh
  · exact key c1 c2 hc1f hc2f hc1p hc2p hne hh
  · exact key c2 c1 hc2f hc1f hc2p hc1p (fun hl => hne hl.symm) hh

/-- Helper: marking only depends on the predicate's values on the rows. -/
theorem markIf_ext (D1 D2 : Nat → Bool) (now : Nat) (files : List FileRec)
    (h : ∀ r ∈ files, D1 r.uid = D2 r.uid) :
    markIf D1 now files = markIf D2 now files := by
  apply List.map_congr_left
  intro r hr
  rw [h r hr]

/-- Helper: marking nothing is the identity. -/
theorem markIf_false (now : Nat) (files : List FileRec) :
    markIf (fun _ => false) now files = files := by
  unfold markIf
  simp

/-- Helper: two markings compose into marking the union. -/
theorem markIf_markIf (D1 D2 : Nat → Bool) (now : Nat) (files : List FileRec) :
    markIf D2 now (markIf D1 now files)
      = markIf (fun u => D1 u || D2 u) now files := by
  unfold markIf
  rw [List.map_map]
  apply List.map_congr_left
  intro r _
  by_cases h1 : D1 r.uid
  · by_cases h2 : D2 r.uid <;>
      simp [Function.comp, h1, h2, markRow]
  · by_cases h2 : D2 r.uid <;>
      simp [Function.comp, h1, h2, markRow]

/-- Helper: an unmarked row passes through `markIf` unchanged. -/
theorem mem_markIf_of_not (D : Nat → Bool) (now : Nat) (files : List FileRec)
    (r : FileRec) (hr : r ∈ files) (hD : D r.uid = false) :
    r ∈ markIf D now files := by
  refine List.mem_map.mpr ⟨r, hr, ?_⟩
  simp [hD]

/-- Helper: `markDeleted` is `markIf` on the single uid. -/
theorem markDeleted_as_markIf (st : St) (uid now : Nat) :
    markDeleted st uid now
      = { st with files := markIf (fun u => decide (u = uid)) now st.files } := by
  unfold markDeleted markIf
  congr 1
  apply List.map_congr_left
  intro r _
  by_cases h : r.uid = uid <;> simp [h, markRow]

/-- Helper: unmarking only depends on the predicate's values on the rows. -/
theorem unmarkIf_ext (D1 D2 : Nat → Bool) (files : List FileRec)
    (h : ∀ r ∈ files, D1 r.uid = D2 r.uid) :
    unmarkIf D1 files = unmarkIf D2 files := by
  apply List.map_congr_left
  intro r hr
  rw [h r hr]

/-- Helper: unmarking nothing is the identity. -/
theorem unmarkIf_false (files : List FileRec) :
    unmarkIf (fun _ => false) files = files := by
  unfold unmarkIf
  simp

/-- Helper: two unmarkings compose into unmarking the union. -/
theorem unmarkIf_unmarkIf (D1 D2 : Nat → Bool) (files : List FileRec) :
    unmarkIf D2 (unmarkIf D1 files)
      = unmarkIf (fun u => D1 u || D2 u) files := by
  unfold unmarkIf
  rw [List.map_map]
  apply List.map_congr_left
  intro r _
  by_cases h1 : D1 r.uid
  · by_cases h2 : D2 r.uid <;>
      simp [Function.comp, h1, h2, unmarkRow]
  · by_cases h2 : D2 r.uid <;>
      simp [Function.comp, h1, h2, unmarkRow]

/-- Helper: an unmarked row passes through `unmarkIf` unchanged. -/
theorem mem_unmarkIf_of_not (D : Nat → Bool) (files : List FileRec)
    (r : FileRec) (hr : r ∈ files) (hD : D r.uid = false) :
    r ∈ unmarkIf D files := by
  refine List.mem_map.mpr ⟨r, hr, ?_⟩
  simp [hD]

/-- Helper: `markRestored` is `unmarkIf` on the single uid. -/
theorem markRestored_as_unmarkIf (st : St) (uid : Nat) :
    markRestored st uid
      = { st with files := unmarkIf (fun u => decide (u = uid)) st.files } := by
  unfold markRestored unmarkIf
  congr 1
  apply List.map_congr_left
  intro r _
  by_cases h : r.uid = uid <;> simp [h, unmarkRow]

/-- Helper: stable insertion is a permutation of consing. -/
theorem perm_insertUpdatedDesc (r : FileRec) (l : List FileRec) :
    List.Perm (insertUpdatedDesc r l) (r :: l) := by
  induction l with
  | nil => exact List.Perm.refl _
  | cons x xs ih =>
    simp only [insertUpdatedDesc]
    by_cases hlt : x.updated_at < r.updated_at
    · rw [if_pos hlt]
    · rw [if_neg hlt]
      exact (ih.cons x).trans (List.Perm.swap r x xs)

/-- Helper: the sort is a permutation. -/
theorem perm_sortUpdatedDesc (l : List FileRec) :
    List.Perm (sortUpdatedDesc l) l := by
  induction l with
  | nil => exact List.Perm.refl _
  | cons x xs ih =>
    exact (perm_insertUpdatedDesc x (sortUpdatedDesc xs)).trans (ih.cons x)

/-- The union of the subtree uid sets of a list of roots. -/
def unionSubtrees (f : Nat) (st : St) (cs : List FileRec) : Nat → Bool :=
  fun u => cs.any (fun c => decide (u ∈ subtreeIds f st c.uid))

/-- Helper: the children listing inside `delete`/`restore`.  Under `TreeOk`,
when every direct child of `s` has deletion flag `flag`, the `list_files`
call made by the cascade returns exactly the children of `s` (sorted), with
no pagination cut. -/
theorem listFiles_children (env : Env) (actor : Nat) (bn : String)
    (rank : Nat → Nat) (st : St) (h : TreeOk env actor bn rank st)
    (s : FileRec) (hs : s ∈ st.files) (flag : Bool)
    (hflag : ∀ r ∈ st.files, r.parent_id = some s.uid → r.is_deleted = flag) :
    listFiles env st
      { user_id := some actor
        business_name := s.business_name
        parent_id := some s.uid
        is_deleted := flag }
      = .ok (sortUpdatedDesc (childrenOf st s.uid),
          (childrenOf st s.uid).length) := by
  have hq : st.files.filter (listQueryMatches
      { user_id := some actor
        business_name := s.business_name
        parent_id := some s.uid
        is_deleted := flag } actor) = childrenOf st s.uid := by
    unfold childrenOf
    apply List.filter_congr
    intro r hr
    show listQueryMatches _ actor r = decide (r.parent_id = some s.uid)
    unfold listQueryMatches parentFilterActive
    by_cases hp : r.parent_id = some s.uid
    · have hbiz : r.business_name = s.business_name := by
        rw [h.2.1 r hr, h.2.1 s hs]
      simp [hp, hflag r hr hp, hbiz, h.1 r hr]
    · simp [hp]
  simp only [listFiles, hq]
  have hlen : (sortUpdatedDesc (childrenOf st s.uid)).length
      ≤ min 10 env.pageMaxLimit := by
    rw [length_sortUpdatedDesc]
    exact h.2.2.2.2.2 s hs
  rw [List.drop_zero, List.take_of_length_le hlen]

/-- Helper: subtree uid sets ignore soft-delete marking. -/
theorem subtreeIds_markIf (D : Nat → Bool) (now f : Nat) (st : St) (a : Nat) :
    subtreeIds f { st with files := markIf D now st.files } a
      = subtreeIds f st a :=
  subtreeIds_map _ (shapePres_markIfF D now) f st a

/-- Helper: subtree uid sets ignore restore marking. -/
theorem subtreeIds_unmarkIf (D : Nat → Bool) (f : Nat) (st : St) (a : Nat) :
    subtreeIds f { st with files := unmarkIf D st.files } a
      = subtreeIds f st a :=
  subtreeIds_map _ (shapePres_unmarkIfF D) f st a

/-- Helper: `TreeOk` ignores soft-delete marking. -/
theorem TreeOk_markIf (env : Env) (actor : Nat) (bn : String)
    (rank : Nat → Nat) (st : St) (D : Nat → Bool) (now : Nat)
    (h : TreeOk env actor bn rank st) :
    TreeOk env actor bn rank { st with files := markIf D now st.files } :=
  TreeOk_map env actor bn rank st _ (shapePres_markIfF D now) h

/-- Helper: `TreeOk` ignores restore marking. -/
theorem TreeOk_unmarkIf (env : Env) (actor : Nat) (bn : String)
    (rank : Nat → Nat) (st : St) (D : Nat → Bool)
    (h : TreeOk env actor bn rank st) :
    TreeOk env actor bn rank { st with files := unmarkIf D st.files } :=
  TreeOk_map env actor bn rank st _ (shapePres_unmarkIfF D) h

/-- Helper: one-step unfolding of `deleteOp` at positive fuel. -/
theorem deleteOp_succ (fuel : Nat) (env : Env) (actor : Nat) (st : St)
    (self : FileRec) :
    deleteOp (fuel + 1) env actor st self =
      (if !(permDelete (userPermission self (some actor))) then
        .error .permissionDenied
      else do
        let st1 ←
          if self.is_directory then do
            let (children, _) ← listFiles env st
              { user_id := some actor
                business_name := self.business_name
                parent_id := some self.uid
                is_deleted := self.is_deleted }
            children.foldlM (fun s c => deleteOp fuel env actor s c) st
          else .ok st
        if !self.is_deleted then
          .ok (markDeleted st1 self.uid env.now)
        else
          let st2 := removeRow st1 self.uid
          if (st2.files.filter (fun r => r.s3_key = self.s3_key)).length = 0 then
            match findObj st2 self.s3_key with
            | some o => .ok (objDelete st2 o)
            | none => .ok st2
          else
            .ok st2) := rfl

/-- Helper: the delete cascade marks exactly the subtree.  Under `TreeOk`,
with every subtree row not yet deleted and fuel at least the root's rank,
`delete` succeeds and the resulting state is the original with precisely the
subtree uids soft-deleted. -/
theorem deleteOp_marks_subtree (env : Env) (actor : Nat) (bn : String)
    (rank : Nat → Nat) : ∀ (fuel : Nat) (st : St) (self : FileRec),
    TreeOk env actor bn rank st →
    self ∈ st.files →
    (∀ r ∈ st.files, r.uid ∈ subtreeIds fuel st self.uid →
      r.is_deleted = false) →
    rank self.uid ≤ fuel →
    deleteOp (fuel + 1) env actor st self
      = .ok { st with
          files := markIf
            (fun u => decide (u ∈ subtreeIds fuel st self.uid))
            env.now st.files } := by
  intro fuel
  induction fuel with
  | zero =>
    intro st self h hsm hfresh hrank
    have howner : self.user_id = actor := h.1 self hsm
    have hperm : permDelete (userPermission self (some actor)) = true := by
      simp only [userPermission]
      rw [if_pos howner]
      rfl
    have hsd : self.is_deleted = false :=
      hfresh self hsm (self_mem_subtreeIds _ st self.uid)
    have hch : childrenOf st self.uid = [] := by
      rw [List.eq_nil_iff_forall_not_mem]
      intro c hc
      have hcf : c ∈ st.files := List.mem_of_mem_filter hc
      have hcp : c.parent_id = some self.uid := by
        simpa using List.of_mem_filter hc
      have := h.2.2.2.1 c hcf self hsm hcp
      omega
    have hmark : (Except.ok (markDeleted st self.uid env.now) : Except Err St)
        = .ok { st with
            files := markIf
              (fun u => decide (u ∈ subtreeIds 0 st self.uid))
              env.now st.files } := by
      rw [markDeleted_as_markIf]
      congr 2
      apply markIf_ext
      intro r _
      simp [subtreeIds]
    by_cases hdir : self.is_directory = true
    · rw [deleteOp_succ]
      simp only [hperm, Bool.not_true, Bool.false_eq_true, if_false,
        hdir, if_true]
      rw [listFiles_children env actor bn rank st h self hsm self.is_deleted
        (by
          intro r hr hp
          exfalso
          have : r ∈ childrenOf st self.uid :=
            List.mem_filter.mpr ⟨hr, by simp [hp]⟩
          rw [hch] at this
          exact (List.not_mem_nil r) this)]
      rw [hch]
      simp only [sortUpdatedDesc, exc_bind_ok, List.foldlM_nil, hsd,
        Bool.not_false, if_true]
      exact hmark
    · rw [deleteOp_succ]
      simp only [hperm, Bool.not_true, Bool.false_eq_true, if_false,
        hdir, hsd, Bool.not_false, if_true, exc_bind_ok]
      exact hmark
  | succ f ih =>
    intro st self h hsm hfresh hrank
    have howner : self.user_id = actor := h.1 self hsm
    have hperm : permDelete (userPermission self (some actor)) = true := by
      simp only [userPermission]
      rw [if_pos howner]
      rfl
    have hsd : self.is_deleted = false :=
      hfresh self hsm (self_mem_subtreeIds _ st self.uid)
    by_cases hdir : self.is_directory = true
    · -- directory: list children, cascade, then mark self
      have hflag : ∀ r ∈ st.files, r.parent_id = some self.uid →
          r.is_deleted = self.is_deleted := by
        intro r hr hp
        rw [hsd]
        refine hfresh r hr (subtree_child_subset f st self.uid r ?_ r.uid
          (self_mem_subtreeIds f st r.uid))
        exact List.mem_filter.mpr ⟨hr, by simp [hp]⟩
      have hfilesnd : st.files.Nodup := List.Nodup.of_map _ h.2.2.1
      have hCnd : (childrenOf st self.uid).Nodup :=
        List.Nodup.sublist (List.filter_sublist _) hfilesnd
      have hperm2 := perm_sortUpdatedDesc (childrenOf st self.uid)
      have hSnd : (sortUpdatedDesc (childrenOf st self.uid)).Nodup :=
        (List.Perm.nodup_iff hperm2).mpr hCnd
      have hpair : List.Pairwise (fun c1 c2 => ∀ u,
          u ∈ subtreeIds f st c2.uid → u ∉ subtreeIds f st c1.uid)
          (sortUpdatedDesc (childrenOf st self.uid)) := by
        apply List.Nodup.pairwise_of_forall_ne hSnd
        intro a ha b hb hne u hub hua
        exact sibling_subtrees_disjoint env actor bn rank st h self hsm f b a
          (hperm2.subset hb) (hperm2.subset ha) (fun he => hne he.symm)
          u hub hua
      have hfold : ∀ (cs : List FileRec) (D : Nat → Bool),
          (∀ c ∈ cs, c ∈ st.files ∧ c.parent_id = some self.uid) →
          (∀ c ∈ cs, ∀ u, u ∈ subtreeIds f st c.uid → D u = false) →
          List.Pairwise (fun c1 c2 => ∀ u,
            u ∈ subtreeIds f st c2.uid → u ∉ subtreeIds f st c1.uid) cs →
          List.foldlM (fun s c => deleteOp (f + 1) env actor s c)
            { st with files := markIf D env.now st.files } cs
            = .ok { st with
                files := markIf
                  (fun u => D u || unionSubtrees f st cs u)
                  env.now st.files } := by
        intro cs
        induction cs with
        | nil =>
          intro D _ _ _
          simp only [List.foldlM_nil]
          show Except.ok _ = _
          have : markIf D env.now st.files = markIf
              (fun u => D u || unionSubtrees f st [] u) env.now st.files := by
            apply markIf_ext
            intro r _
            simp [unionSubtrees]
          rw [this]
        | cons c cs' ihc =>
          intro D hmem hunmark hpairc
          rw [List.foldlM_cons]
          have hcm : c ∈ st.files := (hmem c (List.mem_cons_self c cs')).1
          have hcp : c.parent_id = some self.uid :=
            (hmem c (List.mem_cons_self c cs')).2
          have hcC : c ∈ childrenOf st self.uid :=
            List.mem_filter.mpr ⟨hcm, by simp [hcp]⟩
          have hDc : ∀ u, u ∈ subtreeIds f st c.uid → D u = false :=
            hunmark c (List.mem_cons_self c cs')
          have hTok2 := TreeOk_markIf env actor bn rank st D env.now h
          have hcmem2 : c ∈ markIf D env.now st.files :=
            mem_markIf_of_not D env.now st.files c hcm
              (hDc c.uid (self_mem_subtreeIds f st c.uid))
          have hfresh2 : ∀ r ∈ (markIf D env.now st.files),
              r.uid ∈ subtreeIds f
                { st with files := markIf D env.now st.files } c.uid →
              r.is_deleted = false := by
            intro r hr hru
            rw [subtreeIds_markIf] at hru
            obtain ⟨r0, hr0, rfl⟩ := List.mem_map.mp hr
            have huid : ((if D r0.uid then markRow env.now r0 else r0) :
                FileRec).uid = r0.uid := (shapePres_markIfF D env.now r0).1
            rw [huid] at hru
            have hD0 : D r0.uid = false := hDc r0.uid hru
            simp only [hD0, Bool.false_eq_true, if_false]
            exact hfresh r0 hr0
              (subtree_child_subset f st self.uid c hcC r0.uid hru)
          have hrankc : rank c.uid ≤ f := by
            have := h.2.2.2.1 c hcm self hsm hcp
            omega
          rw [ih _ c hTok2 hcmem2 hfresh2 hrankc, exc_bind_ok]
          have hbig : ({ { st with files := markIf D env.now st.files } with
              files := markIf
                (fun u => decide (u ∈ subtreeIds f
                  { st with files := markIf D env.now st.files } c.uid))
                env.now (markIf D env.now st.files) } : St)
              = { st with
                  files := markIf
                    (fun u => D u || decide (u ∈ subtreeIds f st c.uid))
                    env.now st.files } := by
            simp only [subtreeIds_markIf, markIf_markIf]
          rw [hbig]
          rw [ihc (fun u => D u || decide (u ∈ subtreeIds f st c.uid))
            (fun c2 hc2 => hmem c2 (List.mem_cons_of_mem c hc2))
            (by
              intro c2 hc2 u hu
              have hD2 : D u = false :=
                hunmark c2 (List.mem_cons_of_mem c hc2) u hu
              have hnotc : u ∉ subtreeIds f st c.uid :=
                (List.pairwise_cons.mp hpairc).1 c2 hc2 u hu
              simp [hD2, hnotc])
            (List.pairwise_cons.mp hpairc).2]
          congr 2
          apply markIf_ext
          intro r _
          show ((D r.uid || decide (r.uid ∈ subtreeIds f st c.uid))
              || unionSubtrees f st cs' r.uid)
              = (D r.uid || unionSubtrees f st (c :: cs') r.uid)
          have : unionSubtrees f st (c :: cs') r.uid
              = (decide (r.uid ∈ subtreeIds f st c.uid)
                  || unionSubtrees f st cs' r.uid) := by
            simp [unionSubtrees]
          rw [this, Bool.or_assoc]
      -- assemble the directory case
      rw [deleteOp_succ]
      simp only [hperm, Bool.not_true, Bool.false_eq_true, if_false,
        hdir, if_true]
      rw [listFiles_children env actor bn rank st h self hsm self.is_deleted
        hflag]
      simp only [exc_bind_ok]
      have hstart : ({ st with
          files := markIf (fun _ => false) env.now st.files } : St) = st := by
        rw [markIf_false]
      have hfold0 := hfold (sortUpdatedDesc (childrenOf st self.uid))
        (fun _ => false)
        (fun c hc => ⟨List.mem_of_mem_filter (hperm2.subset hc), by
          simpa using List.of_mem_filter (hperm2.subset hc)⟩)
        (fun _ _ _ _ => rfl) hpair
      rw [hstart] at hfold0
      rw [hfold0]
      simp only [exc_bind_ok, hsd, Bool.not_false, if_true]
      rw [markDeleted_as_markIf, markIf_markIf]
      congr 2
      apply markIf_ext
      intro r _
      by_cases hu : r.uid ∈ subtreeIds (f + 1) st self.uid
      · simp only [hu, decide_True]
        rcases List.mem_cons.mp hu with he | hmm2
        · simp [he]
        · obtain ⟨l, hl, hul⟩ := List.mem_flatten.mp hmm2
          obtain ⟨c, hcC2, rfl⟩ := List.mem_map.mp hl
          have hun : unionSubtrees f st
              (sortUpdatedDesc (childrenOf st self.uid)) r.uid = true := by
            rw [unionSubtrees]
            rw [List.any_eq_true]
            exact ⟨c, hperm2.mem_iff.mpr hcC2, by simp [hul]⟩
          simp [hun]
      · simp only [hu, decide_False]
        have h1 : ¬ (r.uid = self.uid) := by
          intro he
          apply hu
          rw [he]
          exact self_mem_subtreeIds _ st self.uid
        have h2 : unionSubtrees f st
            (sortUpdatedDesc (childrenOf st self.uid)) r.uid = false := by
          rw [unionSubtrees]
          rw [List.any_eq_false]
          intro c hc
          simp only [decide_eq_true_eq]
          intro hmem2
          exact hu (subtree_child_subset f st self.uid c
            (hperm2.subset hc) r.uid hmem2)
        simp [h1, h2]
    · -- file: no children, mark only self
      have hch : childrenOf st self.uid = [] := by
        rw [List.eq_nil_iff_forall_not_mem]
        intro c hc
        have hcf : c ∈ st.files := List.mem_of_mem_filter hc
        have hcp : c.parent_id = some self.uid := by
          simpa using List.of_mem_filter hc
        exact hdir (h.2.2.2.2.1 self hsm c hcf hcp)
      rw [deleteOp_succ]
      simp only [hperm, Bool.not_true, Bool.false_eq_true, if_false,
        hdir, hsd, Bool.not_false, if_true, exc_bind_ok]
      rw [markDeleted_as_markIf]
      congr 2
      apply markIf_ext
      intro r _
      rw [subtree_no_children (f + 1) st self.uid hch]
      simp

/-- Helper: one-step unfolding of `restoreOp` at positive fuel. -/
theorem restoreOp_succ (fuel : Nat) (env : Env) (actor : Nat) (st : St)
    (self : FileRec) :
    restoreOp (fuel + 1) env actor st self =
      (if !(permDelete (userPermission self (some actor))) then
        .error .permissionDenied
      else do
        let st1 ←
          if self.is_directory then do
            let (children, _) ← listFiles env st
              { user_id := some actor
                business_name := self.business_name
                parent_id := some self.uid
                is_deleted := true }
            children.foldlM (fun s c => restoreOp fuel env actor s c) st
          else .ok st
        if self.is_deleted then
          .ok (markRestored st1 self.uid)
        else
          .ok st1) := rfl

/-- Helper: the restore cascade clears exactly the subtree.  Under `TreeOk`,
with every subtree row soft-deleted and fuel at least the root's rank,
`restore` succeeds and the resulting state is the original with precisely
the subtree uids un-deleted. -/
theorem restoreOp_unmarks_subtree (env : Env) (actor : Nat) (bn : String)
    (rank : Nat → Nat) : ∀ (fuel : Nat) (st : St) (self : FileRec),
    TreeOk env actor bn rank st →
    self ∈ st.files →
    (∀ r ∈ st.files, r.uid ∈ subtreeIds fuel st self.uid →
      r.is_deleted = true) →
    rank self.uid ≤ fuel →
    restoreOp (fuel + 1) env actor st self
      = .ok { st with
          files := unmarkIf
            (fun u => decide (u ∈ subtreeIds fuel st self.uid))
            st.files } := by
  intro fuel
  induction fuel with
  | zero =>
    intro st self h hsm hdel hrank
    have howner : self.user_id = actor := h.1 self hsm
    have hperm : permDelete (userPermission self (some actor)) = true := by
      simp only [userPermission]
      rw [if_pos howner]
      rfl
    have hsd : self.is_deleted = true :=
      hdel self hsm (self_mem_subtreeIds _ st self.uid)
    have hch : childrenOf st self.uid = [] := by
      rw [List.eq_nil_iff_forall_not_mem]
      intro c hc
      have hcf : c ∈ st.files := List.mem_of_mem_filter hc
      have hcp : c.parent_id = some self.uid := by
        simpa using List.of_mem_filter hc
      have := h.2.2.2.1 c hcf self hsm hcp
      omega
    have hmark : (Except.ok (markRestored st self.uid) : Except Err St)
        = .ok { st with
            files := unmarkIf
              (fun u => decide (u ∈ subtreeIds 0 st self.uid))
              st.files } := by
      rw [markRestored_as_unmarkIf]
      congr 2
      apply unmarkIf_ext
      intro r _
      simp [subtreeIds]
    by_cases hdir : self.is_directory = true
    · rw [restoreOp_succ]
      simp only [hperm, Bool.not_true, Bool.false_eq_true, if_false,
        hdir, if_true]
      rw [listFiles_children env actor bn rank st h self hsm true
        (by
          intro r hr hp
          exfalso
          have : r ∈ childrenOf st self.uid :=
            List.mem_filter.mpr ⟨hr, by simp [hp]⟩
          rw [hch] at this
          exact (List.not_mem_nil r) this)]
      rw [hch]
      simp only [sortUpdatedDesc, exc_bind_ok, List.foldlM_nil, hsd, if_true]
      exact hmark
    · rw [restoreOp_succ]
      simp only [hperm, Bool.not_true, Bool.false_eq_true, if_false,
        hdir, hsd, if_true, exc_bind_ok]
      exact hmark
  | succ f ih =>
    intro st self h hsm hdel hrank
    have howner : self.user_id = actor := h.1 self hsm
    have hperm : permDelete (userPermission self (some actor)) = true := by
      simp only [userPermission]
      rw [if_pos howner]
      rfl
    have hsd : self.is_deleted = true :=
      hdel self hsm (self_mem_subtreeIds _ st self.uid)
    by_cases hdir : self.is_directory = true
    · have hflag : ∀ r ∈ st.files, r.parent_id = some self.uid →
          r.is_deleted = true := by
        intro r hr hp
        refine hdel r hr (subtree_child_subset f st self.uid r ?_ r.uid
          (self_mem_subtreeIds f st r.uid))
        exact List.mem_filter.mpr ⟨hr, by simp [hp]⟩
      have hfilesnd : st.files.Nodup := List.Nodup.of_map _ h.2.2.1
      have hCnd : (childrenOf st self.uid).Nodup :=
        List.Nodup.sublist (List.filter_sublist _) hfilesnd
      have hperm2 := perm_sortUpdatedDesc (childrenOf st self.uid)
      have hSnd : (sortUpdatedDesc (childrenOf st self.uid)).Nodup :=
        (List.Perm.nodup_iff hperm2).mpr hCnd
      have hpair : List.Pairwise (fun c1 c2 => ∀ u,
          u ∈ subtreeIds f st c2.uid → u ∉ subtreeIds f st c1.uid)
          (sortUpdatedDesc (childrenOf st self.uid)) := by
        apply List.Nodup.pairwise_of_forall_ne hSnd
        intro a ha b hb hne u hub hua
        exact sibling_subtrees_disjoint env actor bn rank st h self hsm f b a
          (hperm2.subset hb) (hperm2.subset ha) (fun he => hne he.symm)
          u hub hua
      have hfold : ∀ (cs : List FileRec) (D : Nat → Bool),
          (∀ c ∈ cs, c ∈ st.files ∧ c.parent_id = some self.uid) →
          (∀ c ∈ cs, ∀ u, u ∈ subtreeIds f st c.uid → D u = false) →
          List.Pairwise (fun c1 c2 => ∀ u,
            u ∈ subtreeIds f st c2.uid → u ∉ subtreeIds f st c1.uid) cs →
          List.foldlM (fun s c => restoreOp (f + 1) env actor s c)
            { st with files := unmarkIf D st.files } cs
            = .ok { st with
                files := unmarkIf
                  (fun u => D u || unionSubtrees f st cs u)
                  st.files } := by
        intro cs
        induction cs with
        | nil =>
          intro D _ _ _
          simp only [List.foldlM_nil]
          show Except.ok _ = _
          have : unmarkIf D st.files = unmarkIf
              (fun u => D u || unionSubtrees f st [] u) st.files := by
            apply unmarkIf_ext
            intro r _
            simp [unionSubtrees]
          rw [this]
        | cons c cs' ihc =>
          intro D hmem hunmark hpairc
          rw [List.foldlM_cons]
          have hcm : c ∈ st.files := (hmem c (List.mem_cons_self c cs')).1
          have hcp : c.parent_id = some self.uid :=
            (hmem c (List.mem_cons_self c cs')).2
          have hcC : c ∈ childrenOf st self.uid :=
            List.mem_filter.mpr ⟨hcm, by simp [hcp]⟩
          have hDc : ∀ u, u ∈ subtreeIds f st c.uid → D u = false :=
            hunmark c (List.mem_cons_self c cs')
          have hTok2 := TreeOk_unmarkIf env actor bn rank st D h
          have hcmem2 : c ∈ unmarkIf D st.files :=
            mem_unmarkIf_of_not D st.files c hcm
              (hDc c.uid (self_mem_subtreeIds f st c.uid))
          have hdel2 : ∀ r ∈ (unmarkIf D st.files),
              r.uid ∈ subtreeIds f
                { st with files := unmarkIf D st.files } c.uid →
              r.is_deleted = true := by
            intro r hr hru
            rw [subtreeIds_unmarkIf] at hru
            obtain ⟨r0, hr0, rfl⟩ := List.mem_map.mp hr
            have huid : ((if D r0.uid then unmarkRow r0 else r0) :
                FileRec).uid = r0.uid := (shapePres_unmarkIfF D r0).1
            rw [huid] at hru
            have hD0 : D r0.uid = false := hDc r0.uid hru
            simp only [hD0, Bool.false_eq_true, if_false]
            exact hdel r0 hr0
              (subtree_child_subset f st self.uid c hcC r0.uid hru)
          have hrankc : rank c.uid ≤ f := by
            have := h.2.2.2.1 c hcm self hsm hcp
            omega
          rw [ih _ c hTok2 hcmem2 hdel2 hrankc, exc_bind_ok]
          have hbig : ({ { st with files := unmarkIf D st.files } with
              files := unmarkIf
                (fun u => decide (u ∈ subtreeIds f
                  { st with files := unmarkIf D st.files } c.uid))
                (unmarkIf D st.files) } : St)
              = { st with
                  files := unmarkIf
                    (fun u => D u || decide (u ∈ subtreeIds f st c.uid))
                    st.files } := by
            simp only [subtreeIds_unmarkIf, unmarkIf_unmarkIf]
          rw [hbig]
          rw [ihc (fun u => D u || decide (u ∈ subtreeIds f st c.uid))
            (fun c2 hc2 => hmem c2 (List.mem_cons_of_mem c hc2))
            (by
              intro c2 hc2 u hu
              have hD2 : D u = false :=
                hunmark c2 (List.mem_cons_of_mem c hc2) u hu
              have hnotc : u ∉ subtreeIds f st c.uid :=
                (List.pairwise_cons.mp hpairc).1 c2 hc2 u hu
              simp [hD2, hnotc])
            (List.pairwise_cons.mp hpairc).2]
          congr 2
          apply unmarkIf_ext
          intro r _
          show ((D r.uid || decide (r.uid ∈ subtreeIds f st c.uid))
              || unionSubtrees f st cs' r.uid)
              = (D r.uid || unionSubtrees f st (c :: cs') r.uid)
          have : unionSubtrees f st (c :: cs') r.uid
              = (decide (r.uid ∈ subtreeIds f st c.uid)
                  || unionSubtrees f st cs' r.uid) := by
            simp [unionSubtrees]
          rw [this, Bool.or_assoc]
      -- assemble the directory case
      rw [restoreOp_succ]
      simp only [hperm, Bool.not_true, Bool.false_eq_true, if_false,
        hdir, if_true]
      rw [listFiles_children env actor bn rank st h self hsm true hflag]
      simp only [exc_bind_ok]
      have hstart : ({ st with
          files := unmarkIf (fun _ => false) st.files } : St) = st := by
        rw [unmarkIf_false]
      have hfold0 := hfold (sortUpdatedDesc (childrenOf st self.uid))
        (fun _ => false)
        (fun c hc => ⟨List.mem_of_mem_filter (hperm2.subset hc), by
          simpa using List.of_mem_filter (hperm2.subset hc)⟩)
        (fun _ _ _ _ => rfl) hpair
      rw [hstart] at hfold0
      rw [hfold0]
      simp only [exc_bind_ok, hsd, if_true]
      rw [markRestored_as_unmarkIf, unmarkIf_unmarkIf]
      congr 2
      apply unmarkIf_ext
      intro r _
      by_cases hu : r.uid ∈ subtreeIds (f + 1) st self.uid
      · simp only [hu, decide_True]
        rcases List.mem_cons.mp hu with he | hmm2
        · simp [he]
        · obtain ⟨l, hl, hul⟩ := List.mem_flatten.mp hmm2
          obtain ⟨c, hcC2, rfl⟩ := List.mem_map.mp hl
          have hun : unionSubtrees f st
              (sortUpdatedDesc (childrenOf st self.uid)) r.uid = true := by
            rw [unionSubtrees]
            rw [List.any_eq_true]
            exact ⟨c, hperm2.mem_iff.mpr hcC2, by simp [hul]⟩
          simp [hun]
      · simp only [hu, decide_False]
        have h1 : ¬ (r.uid = self.uid) := by
          intro he
          apply hu
          rw [he]
          exact self_mem_subtreeIds _ st self.uid
        have h2 : unionSubtrees f st
            (sortUpdatedDesc (childrenOf st self.uid)) r.uid = false := by
          rw [unionSubtrees]
          rw [List.any_eq_false]
          intro c hc
          simp only [decide_eq_true_eq]
          intro hmem2
          exact hu (subtree_child_subset f st self.uid c
            (hperm2.subset hc) r.uid hmem2)
        simp [h1, h2]
    · -- file: no children, clear only self
      have hch : childrenOf st self.uid = [] := by
        rw [List.eq_nil_iff_forall_not_mem]
        intro c hc
        have hcf : c ∈ st.files := List.mem_of_mem_filter hc
        have hcp : c.parent_id = some self.uid := by
          simpa using List.of_mem_filter hc
        exact hdir (h.2.2.2.2.1 self hsm c hcf hcp)
      rw [restoreOp_succ]
      simp only [hperm, Bool.not_true, Bool.false_eq_true, if_false,
        hdir, hsd, if_true, exc_bind_ok]
      rw [markRestored_as_unmarkIf]
      congr 2
      apply unmarkIf_ext
      intro r _
      rw [subtree_no_children (f + 1) st self.uid hch]
      simp

/-- Witness fixture for the amended C2: a directory owned by user 7. -/
def dirW : FileRec :=
  { uid := 1, user_id := 7, business_name := "b", is_directory := true
    filename := "d" }

/-- Witness fixture: a subdirectory of `dirW`. -/
def chW2 : FileRec :=
  { uid := 2, user_id := 7, business_name := "b", parent_id := some 1
    is_directory := true, filename := "sub" }

/-- Witness fixture: a file directly under `dirW`. -/
def chW3 : FileRec :=
  { uid := 3, user_id := 7, business_name := "b", parent_id := some 1
    filename := "a.txt", content_type := "text/plain" }

/-- Witness fixture: a file under the subdirectory `chW2`. -/
def gcW : FileRec :=
  { uid := 4, user_id := 7, business_name := "b", parent_id := some 2
    filename := "g.txt", content_type := "text/plain" }

/-- Witness fixture: the three-level tree for the amended C2. -/
def stW : St :=
  { files := [dirW, chW2, chW3, gcW], objects := [], storage := []
    nextUid := 10 }

/-- C2 (amended): the delete/restore cascade is complete on trees whose
per-level child count stays within the listing cut `min 10 page_max_limit`
(the condition `TreeOk` also fixes single ownership and business and a
well-founded parent structure, and the fuel bounds the tree height).
Soft-deleting the directory marks every node of its subtree deleted, and
restoring the (now soft-deleted) directory row afterwards marks every node
of the subtree not deleted, leaving rows outside the subtree untouched. -/
theorem C2_amended_cascade (env : Env) (actor : Nat) (bn : String)
    (rank : Nat → Nat) (fuel : Nat) (st : St) (dir : FileRec)
    (h : TreeOk env actor bn rank st) (hmem : dir ∈ st.files)
    (hfresh : ∀ r ∈ st.files, r.uid ∈ subtreeIds fuel st dir.uid →
      r.is_deleted = false)
    (hrank : rank dir.uid ≤ fuel) :
    ∃ st1 st2,
      deleteOp (fuel + 1) env actor st dir = .ok st1 ∧
      (∀ r ∈ st1.files, r.uid ∈ subtreeIds fuel st dir.uid →
        r.is_deleted = true) ∧
      restoreOp (fuel + 1) env actor st1 (markRow env.now dir) = .ok st2 ∧
      (∀ r ∈ st2.files, r.uid ∈ subtreeIds fuel st dir.uid →
        r.is_deleted = false) ∧
      (∀ r ∈ st2.files, r.uid ∉ subtreeIds fuel st dir.uid →
        r ∈ st.files) := by
  have h1 := deleteOp_marks_subtree env actor bn rank fuel st dir h hmem
    hfresh hrank
  have h2 : ∀ r ∈ markIf
      (fun u => decide (u ∈ subtreeIds fuel st dir.uid)) env.now st.files,
      r.uid ∈ subtreeIds fuel st dir.uid → r.is_deleted = true := by
    intro r hr hru
    obtain ⟨r0, hr0, rfl⟩ := List.mem_map.mp hr
    have huid := (shapePres_markIfF
      (fun u => decide (u ∈ subtreeIds fuel st dir.uid)) env.now r0).1
    rw [huid] at hru
    simp [hru, markRow]
  have hTok1 := TreeOk_markIf env actor bn rank st
    (fun u => decide (u ∈ subtreeIds fuel st dir.uid)) env.now h
  have hmem1 : markRow env.now dir ∈ markIf
      (fun u => decide (u ∈ subtreeIds fuel st dir.uid)) env.now st.files := by
    refine List.mem_map.mpr ⟨dir, hmem, ?_⟩
    simp [self_mem_subtreeIds]
  have hsub1 : subtreeIds fuel { st with files := markIf (fun u => decide (u ∈ subtreeIds fuel st dir.uid)) env.now st.files } (markRow env.now dir).uid = subtreeIds fuel st dir.uid := by
    have he : (markRow env.now dir).uid = dir.uid := rfl
    rw [he, subtreeIds_markIf]
  have hdelA : ∀ r ∈ ({ st with files := markIf (fun u => decide (u ∈ subtreeIds fuel st dir.uid)) env.now st.files } : St).files,
      r.uid ∈ subtreeIds fuel { st with files := markIf (fun u => decide (u ∈ subtreeIds fuel st dir.uid)) env.now st.files } (markRow env.now dir).uid →
      r.is_deleted = true := by
    intro r hr hru
    rw [hsub1] at hru
    exact h2 r hr hru
  have h3 := restoreOp_unmarks_subtree env actor bn rank fuel
    { st with files := markIf (fun u => decide (u ∈ subtreeIds fuel st dir.uid)) env.now st.files }
    (markRow env.now dir) hTok1 hmem1 hdelA hrank
  have h4 : ∀ r ∈ unmarkIf
      (fun u => decide (u ∈ subtreeIds fuel { st with files := markIf (fun u => decide (u ∈ subtreeIds fuel st dir.uid)) env.now st.files } (markRow env.now dir).uid))
      (markIf (fun u => decide (u ∈ subtreeIds fuel st dir.uid)) env.now st.files),
      r.uid ∈ subtreeIds fuel st dir.uid → r.is_deleted = false := by
    intro r hr hru
    obtain ⟨r1, hr1, rfl⟩ := List.mem_map.mp hr
    have huid := (shapePres_unmarkIfF
      (fun u => decide (u ∈ subtreeIds fuel { st with files := markIf (fun u => decide (u ∈ subtreeIds fuel st dir.uid)) env.now st.files } (markRow env.now dir).uid)) r1).1
    rw [huid] at hru
    have hD1 : decide (r1.uid ∈ subtreeIds fuel { st with files := markIf (fun u => decide (u ∈ subtreeIds fuel st dir.uid)) env.now st.files } (markRow env.now dir).uid) = true := by
      rw [hsub1]
      simp [hru]
    simp [hD1, unmarkRow]
  have h5 : ∀ r ∈ unmarkIf
      (fun u => decide (u ∈ subtreeIds fuel { st with files := markIf (fun u => decide (u ∈ subtreeIds fuel st dir.uid)) env.now st.files } (markRow env.now dir).uid))
      (markIf (fun u => decide (u ∈ subtreeIds fuel st dir.uid)) env.now st.files),
      r.uid ∉ subtreeIds fuel st dir.uid → r ∈ st.files := by
    intro r hr hru
    obtain ⟨r1, hr1, rfl⟩ := List.mem_map.mp hr
    obtain ⟨r0, hr0, rfl⟩ := List.mem_map.mp hr1
    have huid : ((fun r => if decide (r.uid ∈ subtreeIds fuel { st with files := markIf (fun u => decide (u ∈ subtreeIds fuel st dir.uid)) env.now st.files } (markRow env.now dir).uid) then unmarkRow r else r)
        ((fun r => if decide (r.uid ∈ subtreeIds fuel st dir.uid) then markRow env.now r else r) r0)).uid = r0.uid := by
      rw [(shapePres_unmarkIfF (fun u => decide (u ∈ subtreeIds fuel { st with files := markIf (fun u => decide (u ∈ subtreeIds fuel st dir.uid)) env.now st.files } (markRow env.now dir).uid)) ((fun r => if decide (r.uid ∈ subtreeIds fuel st dir.uid) then markRow env.now r else r) r0)).1]
      rw [(shapePres_markIfF (fun u => decide (u ∈ subtreeIds fuel st dir.uid)) env.now r0).1]
    rw [huid] at hru
    have hDD : decide (r0.uid ∈ subtreeIds fuel st dir.uid) = false := by
      simp [hru]
    have hD0 : decide (r0.uid ∈ subtreeIds fuel { st with files := markIf (fun u => decide (u ∈ subtreeIds fuel st dir.uid)) env.now st.files } (markRow env.now dir).uid) = false := by
      rw [hsub1]
      simp [hru]
    simp only [hDD, Bool.false_eq_true, if_false, hD0]
    exact hr0
  exact ⟨_, _, h1, h2, h3, h4, h5⟩

/-- Witness for the amended C2 on a concrete three-level tree: directory 1
with children 2 (a subdirectory) and 3, and grandchild 4 under 2. -/
theorem C2_amended_cascade_witness :
    ∃ st1 st2,
      deleteOp (3 + 1) env0 7 stW dirW = .ok st1 ∧
      (∀ r ∈ st1.files, r.uid ∈ subtreeIds 3 stW dirW.uid →
        r.is_deleted = true) ∧
      restoreOp (3 + 1) env0 7 st1 (markRow env0.now dirW) = .ok st2 ∧
      (∀ r ∈ st2.files, r.uid ∈ subtreeIds 3 stW dirW.uid →
        r.is_deleted = false) ∧
      (∀ r ∈ st2.files, r.uid ∉ subtreeIds 3 stW dirW.uid →
        r ∈ stW.files) :=
  C2_amended_cascade env0 7 "b" (fun u => 4 - u) 3 stW dirW
    (by unfold TreeOk; decide) (by decide) (by decide) (by decide)

end Theorems

end UFiles
